import Mathlib

/-!
Verification of the openpoke orchestrator core against its specification.

Each section embeds one part of the source (tool-name validation, tool-call
parsing, the execution-agent loop, the trigger scheduler, the duplicate
detector, and the conversation log) as executable Lean definitions and proves
the specified properties about them.
-/

namespace OpenPoke

/-! ## Tool-name concatenation splitting (`server/utils/tool_validation.py`) -/

/-- The separator characters allowed between concatenated tool-name components
(`separators = {"_", " ", "-", "+"}`). -/
def isSep (c : Char) : Bool :=
  c = '_' || c = ' ' || c = '-' || c = '+'

/-- Length of the maximal leading run of separator characters. -/
def leadingSeps : List Char → Nat
  | [] => 0
  | c :: cs => if isSep c then leadingSeps cs + 1 else 0

/-- The `while current < len(name) and name[current] in separators` loop:
first index at or after `i` holding a non-separator character. -/
def skipSeps (name : List Char) (i : Nat) : Nat :=
  i + leadingSeps (name.drop i)

/-- Insert a candidate into a list kept sorted by length, longest first
(stable, mirroring `sorted(known_tools, key=len, reverse=True)`). -/
def insertByLen (x : List Char) : List (List Char) → List (List Char)
  | [] => [x]
  | y :: ys => if y.length < x.length then x :: y :: ys else y :: insertByLen x ys

/-- Sort the known tools by length, longest first. -/
def sortByLenDesc (l : List (List Char)) : List (List Char) :=
  l.foldr insertByLen []

/-- The `for candidate in sorted_tools` loop of `_split_from`: try each
candidate in order; on a prefix match, recurse after the candidate and
backtrack if the recursion fails. `f` is the recursive call `_split_from`. -/
def tryCands (f : Nat → Option (List (List Char))) (name : List Char) (cur : Nat) :
    List (List Char) → Option (List (List Char))
  | [] => none
  | t :: rest =>
    if t.isPrefixOf (name.drop cur) then
      match f (cur + t.length) with
      | some r => some (t :: r)
      | none => tryCands f name cur rest
    else tryCands f name cur rest

/-- The recursive `_split_from(index)` of `split_known_tools`, with explicit
fuel (the Python recursion always advances when no known tool is the empty
string, so `name.length + 1` fuel is enough). -/
def splitFromAux (name : List Char) (tools : List (List Char)) :
    Nat → Nat → Option (List (List Char))
  | 0, _ => none
  | fuel + 1, i =>
    if name.length ≤ i then some []
    else
      let cur := if 0 < i then skipSeps name i else i
      if 0 < i ∧ name.length ≤ cur then some []
      else tryCands (splitFromAux name tools fuel) name cur tools

/-- `split_known_tools(name, known_tools)`: attempt to split a concatenated
tool name into known tool identifiers; return the empty list when no
multi-component split is found. -/
def split_known_tools (name : String) (knownTools : List String) : List String :=
  match splitFromAux name.data (sortByLenDesc (knownTools.map String.data))
      (name.data.length + 1) 0 with
  | none => []
  | some comps => if comps.length ≤ 1 then [] else comps.map String.mk

/-- A decomposition of a suffix of the name: each component is a known tool,
preceded by an (optional) separator run, with an optional trailing separator
run once the components are exhausted. -/
inductive DecompFrom (tools : List (List Char)) : List Char → List (List Char) → Prop
  | done (s : List Char) (hs : ∀ c ∈ s, isSep c = true) : DecompFrom tools s []
  | step (s t r : List Char) (cs : List (List Char))
      (hs : ∀ c ∈ s, isSep c = true) (ht : t ∈ tools)
      (hr : DecompFrom tools r cs) : DecompFrom tools (s ++ (t ++ r)) (t :: cs)

/-- A full decomposition of the name: no separators before the first
component. -/
def DecompName (tools : List (List Char)) (name : List Char) :
    List (List Char) → Prop
  | [] => name = []
  | t :: cs => ∃ r, name = t ++ r ∧ t ∈ tools ∧ DecompFrom tools r cs

lemma leadingSeps_le_length (l : List Char) : leadingSeps l ≤ l.length := by
  induction l with
  | nil => simp [leadingSeps]
  | cons c cs ih =>
    simp only [leadingSeps, List.length_cons]
    split <;> omega

lemma isSep_of_mem_take_leadingSeps {l : List Char} {c : Char}
    (hc : c ∈ l.take (leadingSeps l)) : isSep c = true := by
  induction l with
  | nil => simp [leadingSeps] at hc
  | cons a as ih =>
    by_cases h : isSep a
    · simp only [leadingSeps, h, if_true, List.take_succ_cons, List.mem_cons] at hc
      rcases hc with rfl | hc
      · exact h
      · exact ih hc
    · simp [leadingSeps, h] at hc

lemma mem_insertByLen {x y : List Char} {l : List (List Char)} :
    x ∈ insertByLen y l ↔ x = y ∨ x ∈ l := by
  induction l with
  | nil => simp [insertByLen]
  | cons z zs ih =>
    simp only [insertByLen]
    split
    · simp [List.mem_cons]
    · simp only [List.mem_cons, ih]
      tauto

lemma pairwise_insertByLen {x : List Char} {l : List (List Char)}
    (hl : l.Pairwise (fun a b => b.length ≤ a.length)) :
    (insertByLen x l).Pairwise (fun a b => b.length ≤ a.length) := by
  induction l with
  | nil => simp [insertByLen]
  | cons z zs ih =>
    rw [List.pairwise_cons] at hl
    obtain ⟨hz, hzs⟩ := hl
    simp only [insertByLen]
    split
    · rename_i hlt
      refine List.pairwise_cons.mpr ⟨?_, List.pairwise_cons.mpr ⟨hz, hzs⟩⟩
      intro b hb
      rcases List.mem_cons.mp hb with rfl | hb
      · omega
      · have := hz b hb
        omega
    · rename_i hnlt
      refine List.pairwise_cons.mpr ⟨?_, ih hzs⟩
      intro b hb
      rcases mem_insertByLen.mp hb with rfl | hb
      · omega
      · exact hz b hb

lemma mem_sortByLenDesc {x : List Char} {l : List (List Char)} :
    x ∈ sortByLenDesc l ↔ x ∈ l := by
  induction l with
  | nil => simp [sortByLenDesc]
  | cons y ys ih =>
    simp only [sortByLenDesc, List.foldr_cons] at *
    rw [mem_insertByLen, ih]
    simp

lemma pairwise_sortByLenDesc (l : List (List Char)) :
    (sortByLenDesc l).Pairwise (fun a b => b.length ≤ a.length) := by
  induction l with
  | nil => simp [sortByLenDesc]
  | cons y ys ih => exact pairwise_insertByLen ih

lemma splitFromAux_at_end {name : List Char} {tools : List (List Char)} {fuel i : Nat}
    (hfuel : 0 < fuel) (hi : name.length ≤ i) :
    splitFromAux name tools fuel i = some [] := by
  cases fuel with
  | zero => omega
  | succ f => simp [splitFromAux, hi]

lemma tryCands_single {name : List Char} {tools : List (List Char)} {fuel : Nat}
    (hfuel : 0 < fuel) :
    ∀ l : List (List Char),
      l.Pairwise (fun a b => b.length ≤ a.length) → name ∈ l →
      tryCands (splitFromAux name tools fuel) name 0 l = some [name] := by
  intro l
  induction l with
  | nil =>
    intro _ h
    simp at h
  | cons t rest ih =>
    intro hp hmem
    rw [List.pairwise_cons] at hp
    by_cases ht : t = name
    · subst ht
      have hpre : t.isPrefixOf (List.drop 0 t) = true := by
        rw [List.drop_zero]
        exact List.isPrefixOf_iff_prefix.mpr (List.prefix_refl t)
      simp only [tryCands, hpre, if_true,
        splitFromAux_at_end hfuel (Nat.le_add_left t.length 0)]
    · have hname : name ∈ rest := by
        rcases List.mem_cons.mp hmem with h | h
        · exact absurd h.symm ht
        · exact h
      have hlen : name.length ≤ t.length := hp.1 name hname
      have hpre : t.isPrefixOf (List.drop 0 name) = false := by
        rw [List.drop_zero]
        by_contra h
        rw [Bool.not_eq_false] at h
        have hp2 := List.isPrefixOf_iff_prefix.mp h
        exact ht (List.IsPrefix.eq_of_length hp2 (le_antisymm hp2.length_le hlen))
      simp only [tryCands, hpre, Bool.false_eq_true, if_false]
      exact ih hp.2 hname

lemma splitFromAux_step {name : List Char} {tools : List (List Char)} {fuel : Nat}
    (hlen : 0 < name.length) :
    splitFromAux name tools (fuel + 1) 0 = tryCands (splitFromAux name tools fuel) name 0 tools := by
  rw [splitFromAux]
  rw [if_neg (by omega)]
  simp only [Nat.lt_irrefl, if_false, false_and, ite_false]

lemma split_known_tools_of_mem {name : String} {known : List String}
    (h : name ∈ known) : split_known_tools name known = [] := by
  unfold split_known_tools
  by_cases hnil : name.data = []
  · simp [hnil, splitFromAux]
  · have hlen : 0 < name.data.length := List.length_pos.mpr hnil
    have hmem : name.data ∈ sortByLenDesc (known.map String.data) :=
      mem_sortByLenDesc.mpr (List.mem_map_of_mem _ h)
    rw [splitFromAux_step hlen,
      tryCands_single hlen _ (pairwise_sortByLenDesc _) hmem]
    simp

lemma tryCands_sound {f : Nat → Option (List (List Char))} {name : List Char} {cur : Nat} :
    ∀ {l cs : List (List Char)},
      tryCands f name cur l = some cs →
      ∃ t cs', cs = t :: cs' ∧ t ∈ l ∧ t <+: name.drop cur
        ∧ f (cur + t.length) = some cs' := by
  intro l
  induction l with
  | nil =>
    intro cs h
    simp [tryCands] at h
  | cons t rest ih =>
    intro cs h
    simp only [tryCands] at h
    by_cases hpre : t.isPrefixOf (name.drop cur) = true
    · rw [if_pos hpre] at h
      cases hf : f (cur + t.length) with
      | some r =>
        rw [hf] at h
        refine ⟨t, r, ?_, List.mem_cons_self t rest,
          List.isPrefixOf_iff_prefix.mp hpre, hf⟩
        cases h
        rfl
      | none =>
        rw [hf] at h
        obtain ⟨t', cs', h1, h2, h3, h4⟩ := ih h
        exact ⟨t', cs', h1, List.mem_cons_of_mem _ h2, h3, h4⟩
    · rw [if_neg hpre] at h
      obtain ⟨t', cs', h1, h2, h3, h4⟩ := ih h
      exact ⟨t', cs', h1, List.mem_cons_of_mem _ h2, h3, h4⟩

lemma splitFromAux_sound {name : List Char} {tools : List (List Char)}
    (htools : ∀ t ∈ tools, t ≠ []) :
    ∀ (fuel i : Nat) (cs : List (List Char)),
      splitFromAux name tools fuel i = some cs →
      (0 < i → DecompFrom tools (name.drop i) cs) ∧
      (i = 0 → DecompName tools name cs) := by
  intro fuel
  induction fuel with
  | zero =>
    intro i cs h
    simp [splitFromAux] at h
  | succ f ih =>
    intro i cs h
    simp only [splitFromAux] at h
    by_cases hend : name.length ≤ i
    · rw [if_pos hend] at h
      cases h
      constructor
      · intro _
        rw [List.drop_eq_nil_of_le hend]
        exact DecompFrom.done [] (by simp)
      · intro hi0
        subst hi0
        simp only [DecompName]
        exact List.eq_nil_of_length_eq_zero (by omega)
    · rw [if_neg hend] at h
      by_cases hi : 0 < i
      · simp only [hi, if_true, true_and] at h
        by_cases hskip : name.length ≤ skipSeps name i
        · rw [if_pos (by simpa using hskip)] at h
          cases h
          refine ⟨fun _ => ?_, fun hi0 => by omega⟩
          have hL : (name.drop i).length ≤ leadingSeps (name.drop i) := by
            have := hskip
            simp only [skipSeps] at this
            rw [List.length_drop]
            omega
          have htake : (name.drop i).take (leadingSeps (name.drop i)) = name.drop i :=
            List.take_of_length_le hL
          exact DecompFrom.done _ (fun c hc => isSep_of_mem_take_leadingSeps
            (by rw [htake]; exact hc))
        · rw [if_neg (by simpa using hskip)] at h
          obtain ⟨t, cs', rfl, htmem, htpre, hrec⟩ := tryCands_sound h
          have htne : t ≠ [] := htools t htmem
          have htlen : 0 < t.length := List.length_pos.mpr htne
          have hrec' : DecompFrom tools (name.drop (skipSeps name i + t.length)) cs' :=
            (ih _ cs' hrec).1 (by omega)
          refine ⟨fun _ => ?_, fun hi0 => by omega⟩
          have hsplit1 : name.drop i
              = (name.drop i).take (leadingSeps (name.drop i)) ++ name.drop (skipSeps name i) := by
            conv_lhs => rw [← List.take_append_drop (leadingSeps (name.drop i)) (name.drop i)]
            rw [List.drop_drop]
            rfl
          have hsplit2 : name.drop (skipSeps name i)
              = t ++ name.drop (skipSeps name i + t.length) := by
            have := List.prefix_iff_eq_append.mp htpre
            rw [List.drop_drop] at this
            exact this.symm
          rw [hsplit1, hsplit2]
          exact DecompFrom.step _ t _ cs'
            (fun c hc => isSep_of_mem_take_leadingSeps hc) htmem hrec'
      · have hi0 : i = 0 := by omega
        subst hi0
        simp only [Nat.lt_irrefl, if_false, false_and] at h
        obtain ⟨t, cs', rfl, htmem, htpre, hrec⟩ := tryCands_sound h
        have htne : t ≠ [] := htools t htmem
        have htlen : 0 < t.length := List.length_pos.mpr htne
        have hrec' : DecompFrom tools (name.drop (0 + t.length)) cs' :=
          (ih _ cs' hrec).1 (by omega)
        refine ⟨fun h0 => by omega, fun _ => ?_⟩
        simp only [DecompName]
        refine ⟨name.drop (0 + t.length), ?_, htmem, hrec'⟩
        have heq := List.prefix_iff_eq_append.mp htpre
        rw [List.drop_drop, List.drop_zero] at heq
        exact heq.symm

lemma DecompFrom_congr {toolsA toolsB : List (List Char)}
    (h : ∀ t, t ∈ toolsA ↔ t ∈ toolsB) :
    ∀ {r cs}, DecompFrom toolsA r cs → DecompFrom toolsB r cs := by
  intro r cs hd
  induction hd with
  | done s hs => exact .done s hs
  | step s t r cs hs ht hr ihr => exact .step s t r cs hs ((h t).mp ht) ihr

lemma DecompFrom_mem {tools : List (List Char)} :
    ∀ {r cs}, DecompFrom tools r cs → ∀ c ∈ cs, c ∈ tools := by
  intro r cs hd
  induction hd with
  | done s hs => simp
  | step s t r cs hs ht hr ihr =>
    intro c hc
    rcases List.mem_cons.mp hc with rfl | hc
    · exact ht
    · exact ihr c hc

lemma split_known_tools_sound {name : String} {known : List String}
    (hne : ∀ t ∈ known, t ≠ "") (hres : split_known_tools name known ≠ []) :
    2 ≤ (split_known_tools name known).length
      ∧ (∀ c ∈ split_known_tools name known, c ∈ known)
      ∧ DecompName (known.map String.data) name.data
          ((split_known_tools name known).map String.data) := by
  have htools : ∀ t ∈ sortByLenDesc (known.map String.data), t ≠ [] := by
    intro t ht hnil
    rw [mem_sortByLenDesc] at ht
    obtain ⟨s, hs, rfl⟩ := List.mem_map.mp ht
    exact hne s hs (String.ext hnil)
  have hmemS : ∀ c : String, c.data ∈ known.map String.data → c ∈ known := by
    intro c hc
    obtain ⟨s, hs, hsd⟩ := List.mem_map.mp hc
    have : s = c := String.ext hsd
    exact this ▸ hs
  unfold split_known_tools at hres ⊢
  cases hsplit : splitFromAux name.data (sortByLenDesc (known.map String.data))
      (name.data.length + 1) 0 with
  | none =>
    rw [hsplit] at hres
    exact absurd rfl hres
  | some comps =>
    rw [hsplit] at hres
    dsimp only at hres ⊢
    by_cases hlen : comps.length ≤ 1
    · rw [if_pos hlen] at hres
      exact absurd rfl hres
    · rw [if_neg hlen]
      have hsound := (splitFromAux_sound htools _ 0 comps hsplit).2 rfl
      cases comps with
      | nil => simp at hlen
      | cons t cs =>
        simp only [DecompName] at hsound
        obtain ⟨r, heq, htmem, hdf⟩ := hsound
        have hmaps : ((t :: cs).map String.mk).map String.data = t :: cs := by
          rw [List.map_map]
          exact List.map_id _
        refine ⟨by rw [List.length_map]; omega, ?_, ?_⟩
        · intro c hc
          obtain ⟨l, hl, rfl⟩ := List.mem_map.mp hc
          apply hmemS
          show (String.mk l).data ∈ known.map String.data
          rcases List.mem_cons.mp hl with rfl | hl
          · exact mem_sortByLenDesc.mp htmem
          · exact mem_sortByLenDesc.mp (DecompFrom_mem hdf l hl)
        · rw [hmaps]
          simp only [DecompName]
          exact ⟨r, heq, mem_sortByLenDesc.mp htmem,
            DecompFrom_congr (fun u => mem_sortByLenDesc) hdf⟩

/-- C1: `split_known_tools` returns a left-to-right decomposition of the name
into two or more known tool names (longer candidates tried first, optional
separator runs between components but none before the first component), and
returns `[]` when the name is exactly one known tool or when it finds no
multi-component decomposition.  Concrete cases: with known `{A, B}` the inputs
`AB`, `A_B`, `A-B`, `A B`, `A+B` all split to `[A, B]`; `A` splits to `[]`;
`ABC` with known `{A, B, C}` splits to `[A, B, C]`; `AX` with known `{A}`
splits to `[]`; with known `{send_message, send_message_to_agent, send_draft}`
the input `send_message_to_agentsend_draft` splits to
`[send_message_to_agent, send_draft]`. -/
theorem split_known_tools_spec :
    (split_known_tools "AB" ["A", "B"] = ["A", "B"]
      ∧ split_known_tools "A_B" ["A", "B"] = ["A", "B"]
      ∧ split_known_tools "A-B" ["A", "B"] = ["A", "B"]
      ∧ split_known_tools "A B" ["A", "B"] = ["A", "B"]
      ∧ split_known_tools "A+B" ["A", "B"] = ["A", "B"]
      ∧ split_known_tools "A" ["A", "B"] = []
      ∧ split_known_tools "ABC" ["A", "B", "C"] = ["A", "B", "C"]
      ∧ split_known_tools "AX" ["A"] = []
      ∧ split_known_tools "send_message_to_agentsend_draft"
          ["send_message", "send_message_to_agent", "send_draft"]
          = ["send_message_to_agent", "send_draft"])
    ∧ (∀ (name : String) (known : List String), name ∈ known →
        split_known_tools name known = [])
    ∧ (∀ (name : String) (known : List String),
        (∀ t ∈ known, t ≠ "") → split_known_tools name known ≠ [] →
        2 ≤ (split_known_tools name known).length
          ∧ (∀ c ∈ split_known_tools name known, c ∈ known)
          ∧ DecompName (known.map String.data) name.data
              ((split_known_tools name known).map String.data)) :=
  ⟨⟨by decide, by decide, by decide, by decide, by decide, by decide, by decide,
    by decide, by decide⟩,
   fun _ _ h => split_known_tools_of_mem h,
   fun _ _ hne hres => split_known_tools_sound hne hres⟩

/-- Witness for C1 at concrete inputs: `A` is a known tool so it does not
split, and `AB` has a genuine two-component decomposition. -/
theorem split_known_tools_spec_witness :
    split_known_tools "A" ["A", "B"] = []
      ∧ 2 ≤ (split_known_tools "AB" ["A", "B"]).length :=
  ⟨split_known_tools_spec.2.1 "A" ["A", "B"] (by decide),
   (split_known_tools_spec.2.2 "AB" ["A", "B"] (by decide) (by decide)).1⟩

/-! ## JSON values and argument parsing (`server/utils/json_utils.py`,
`server/agents/tool_parsing.py`,
`ExecutionAgentRuntime._extract_tool_calls` in
`server/agents/execution_agent/runtime.py`)

`json.loads` / `json.dumps` are Python standard library, not repository code;
they enter the embedding as oracle parameters (`jsonLoads`, `jsonDumps`). -/

mutual
/-- A parsed JSON value (a possible result of `json.loads`). -/
inductive JVal where
  | null
  | jbool (b : Bool)
  | num (n : Int)
  | str (s : String)
  | arr (xs : JArr)
  | obj (fields : JObj)
  deriving DecidableEq

/-- A JSON array. -/
inductive JArr where
  | nil
  | cons (v : JVal) (rest : JArr)
  deriving DecidableEq

/-- A JSON object: an ordered association list of key/value pairs
(a Python `dict`). -/
inductive JObj where
  | nil
  | cons (k : String) (v : JVal) (rest : JObj)
  deriving DecidableEq
end

/-- Python `str.strip()`: remove leading and trailing whitespace. -/
def pyStrip (s : String) : String :=
  String.mk (((s.data.dropWhile Char.isWhitespace).reverse.dropWhile
    Char.isWhitespace).reverse)

/-- `key in d` for a Python dict. -/
def JObj.hasKey (key : String) : JObj → Bool
  | .nil => false
  | .cons k _ rest => k = key || JObj.hasKey key rest

/-- The raw `arguments` payload of an LLM tool call as Python sees it:
`None`, a mapping, a string, or a value of any other type. -/
inductive PyArgs where
  | pyNone
  | pyDict (d : JObj)
  | pyStr (s : String)
  | pyOther (typeName : String)
  deriving DecidableEq

/-- `safe_json_load(raw_data)`: `None` and the empty/whitespace string parse
to `{}`; a mapping is accepted as-is; a string is JSON-parsed and must decode
to an object; everything else is an error.  Returns `(parsed_dict, error)`. -/
def safe_json_load (jsonLoads : String → Except String JVal) :
    PyArgs → JObj × Option String
  | .pyNone => (.nil, none)
  | .pyDict d => (d, none)
  | .pyStr s =>
    if pyStrip s = "" then (.nil, none)
    else
      match jsonLoads s with
      | .error e => (.nil, some ("invalid json: " ++ e))
      | .ok (.obj d) => (d, none)
      | .ok _ => (.nil, some "decoded arguments were not an object")
  | .pyOther ty => (.nil, some ("unsupported argument type: " ++ ty))

/-- One raw tool call from an LLM response: `{id, function: {name, arguments}}`.
`fnName = none` models a missing or non-string `function.name`. -/
structure RawToolCall where
  id : Option String
  fnName : Option String
  fnArguments : PyArgs
  deriving DecidableEq

/-- A normalized tool call (`ParsedToolCall` in `tool_parsing.py`; the
`{id, name, arguments}` dicts built by the runtimes). -/
structure ParsedToolCall where
  identifier : Option String
  name : String
  arguments : JObj
  deriving DecidableEq

/-- An arguments dict carrying only the reserved `__invalid_arguments__` key. -/
def invalidArgsObj (msg : String) : JObj :=
  .cons "__invalid_arguments__" (.str msg) .nil

/-- The rejection message for a concatenated tool name. -/
def concatenationErrorMessage (name : String) (comps : List String) : String :=
  "CRITICAL ERROR: You attempted to call multiple tools in a single invocation. "
    ++ "The tool name '" ++ name ++ "' is invalid because it combines these tools: "
    ++ String.intercalate ", " comps
    ++ ". You MUST call each tool separately in its own tool invocation. "
    ++ "Make separate calls for: " ++ String.intercalate " and " comps ++ "."

/-- The rejection message for an unknown tool name. -/
def unknownToolMessage (name : String) : String :=
  "ERROR: Unknown tool '" ++ name ++ "'. Please use only the tools provided in your schema."

/-- `parse_tool_calls(raw_tool_calls, known_tools)` from `tool_parsing.py`:
drop calls without a usable name; reject concatenated names with a structured
`__invalid_arguments__` entry; otherwise parse arguments through
`safe_json_load`, turning a parse error into an `__invalid_arguments__` entry
carrying the parser's error text. -/
def parse_tool_calls (jsonLoads : String → Except String JVal)
    (knownTools : List String) : List RawToolCall → List ParsedToolCall
  | [] => []
  | raw :: rest =>
    match raw.fnName with
    | none => parse_tool_calls jsonLoads knownTools rest
    | some name =>
      if name = "" then parse_tool_calls jsonLoads knownTools rest
      else
        let concatenated := split_known_tools name knownTools
        if concatenated ≠ [] then
          { identifier := raw.id, name := concatenated.headD "",
            arguments := invalidArgsObj (concatenationErrorMessage name concatenated) }
            :: parse_tool_calls jsonLoads knownTools rest
        else
          match safe_json_load jsonLoads raw.fnArguments with
          | (_, some err) =>
            { identifier := raw.id, name := name, arguments := invalidArgsObj err }
              :: parse_tool_calls jsonLoads knownTools rest
          | (args, none) =>
            { identifier := raw.id, name := name, arguments := args }
              :: parse_tool_calls jsonLoads knownTools rest

/-- `ExecutionAgentRuntime._extract_tool_calls(raw_tools)`: the execution
runtime's own copy of tool-call extraction.  Unlike `parse_tool_calls` it
also rejects unknown tool names, and on an argument JSON parse error it
keeps the call but replaces the arguments with the empty dict
(`args = {}`). -/
def extract_tool_calls (jsonLoads : String → Except String JVal)
    (knownTools : List String) : List RawToolCall → List ParsedToolCall
  | [] => []
  | raw :: rest =>
    match raw.fnName with
    | none => extract_tool_calls jsonLoads knownTools rest
    | some name =>
      if name = "" then extract_tool_calls jsonLoads knownTools rest
      else
        let concatenated := split_known_tools name knownTools
        if 1 < concatenated.length then
          { identifier := raw.id, name := concatenated.headD "",
            arguments := invalidArgsObj (concatenationErrorMessage name concatenated) }
            :: extract_tool_calls jsonLoads knownTools rest
        else
          if name ∉ knownTools then
            { identifier := raw.id, name := name,
              arguments := invalidArgsObj (unknownToolMessage name) }
              :: extract_tool_calls jsonLoads knownTools rest
          else
            match safe_json_load jsonLoads raw.fnArguments with
            | (_, some _) =>
              { identifier := raw.id, name := name, arguments := .nil }
                :: extract_tool_calls jsonLoads knownTools rest
            | (args, none) =>
              { identifier := raw.id, name := name, arguments := args }
                :: extract_tool_calls jsonLoads knownTools rest

/-- C7 (amended): for a raw tool call whose name is a known, non-concatenated
tool, the shared parser `parse_tool_calls` treats arguments as specified:
`null` becomes `{}`, a mapping is accepted as-is, a JSON string is parsed
(empty or whitespace-only becomes `{}`), and on a JSON parse error the
emitted call carries the single reserved key `__invalid_arguments__` holding
the parser's error text.  The execution runtime's own `_extract_tool_calls`,
however, silently replaces the arguments with `{}` on a JSON parse error. -/
theorem parse_tool_calls_arguments_spec :
    ∀ (jsonLoads : String → Except String JVal) (known : List String)
      (raw : RawToolCall) (rest : List RawToolCall) (name : String),
      raw.fnName = some name → name ≠ "" →
      split_known_tools name known = [] →
      ((raw.fnArguments = .pyNone →
          parse_tool_calls jsonLoads known (raw :: rest)
            = ⟨raw.id, name, .nil⟩ :: parse_tool_calls jsonLoads known rest)
        ∧ (∀ d, raw.fnArguments = .pyDict d →
            parse_tool_calls jsonLoads known (raw :: rest)
              = ⟨raw.id, name, d⟩ :: parse_tool_calls jsonLoads known rest)
        ∧ (∀ s, raw.fnArguments = .pyStr s → pyStrip s = "" →
            parse_tool_calls jsonLoads known (raw :: rest)
              = ⟨raw.id, name, .nil⟩ :: parse_tool_calls jsonLoads known rest)
        ∧ (∀ s d, raw.fnArguments = .pyStr s → pyStrip s ≠ "" →
            jsonLoads s = .ok (.obj d) →
            parse_tool_calls jsonLoads known (raw :: rest)
              = ⟨raw.id, name, d⟩ :: parse_tool_calls jsonLoads known rest)
        ∧ (∀ s e, raw.fnArguments = .pyStr s → pyStrip s ≠ "" →
            jsonLoads s = .error e →
            parse_tool_calls jsonLoads known (raw :: rest)
              = ⟨raw.id, name, invalidArgsObj ("invalid json: " ++ e)⟩
                  :: parse_tool_calls jsonLoads known rest))
      ∧ (∀ s e, raw.fnArguments = .pyStr s → pyStrip s ≠ "" →
          jsonLoads s = .error e → name ∈ known →
          extract_tool_calls jsonLoads known (raw :: rest)
            = ⟨raw.id, name, .nil⟩ :: extract_tool_calls jsonLoads known rest) := by
  intro jsonLoads known raw rest name hname hne hsplit
  refine ⟨⟨?_, ?_, ?_, ?_, ?_⟩, ?_⟩
  · intro hargs
    simp only [parse_tool_calls, hname, hne, if_false, hsplit, ne_eq,
      not_true_eq_false, safe_json_load, hargs]
  · intro d hargs
    simp only [parse_tool_calls, hname, hne, if_false, hsplit, ne_eq,
      not_true_eq_false, safe_json_load, hargs]
  · intro s hargs htrim
    simp only [parse_tool_calls, hname, hne, if_false, hsplit, ne_eq,
      not_true_eq_false, safe_json_load, hargs, htrim, if_true]
  · intro s d hargs htrim hload
    simp only [parse_tool_calls, hname, hne, if_false, hsplit, ne_eq,
      not_true_eq_false, safe_json_load, hargs, htrim, hload, if_false]
  · intro s e hargs htrim hload
    simp only [parse_tool_calls, hname, hne, if_false, hsplit, ne_eq,
      not_true_eq_false, safe_json_load, hargs, htrim, hload, if_false]
  · intro s e hargs htrim hload hknown
    simp only [extract_tool_calls, hname, hne, if_false, hsplit,
      List.length_nil, safe_json_load, hargs, htrim, hload, hknown,
      not_true_eq_false, if_false]
    norm_num

/-- Witness for C7: the parse-error branch of `parse_tool_calls` at a
concrete unparsable-arguments call. -/
theorem parse_tool_calls_arguments_spec_witness :
    parse_tool_calls (fun _ => .error "Expecting value") ["wait"]
        [⟨some "c1", some "wait", .pyStr "oops"⟩]
      = [⟨some "c1", "wait", invalidArgsObj ("invalid json: " ++ "Expecting value")⟩] := by
  have h := (parse_tool_calls_arguments_spec (fun _ => .error "Expecting value")
    ["wait"] ⟨some "c1", some "wait", .pyStr "oops"⟩ [] "wait" rfl (by decide)
    (by decide)).1.2.2.2.2
  simpa using h "oops" "Expecting value" rfl (by decide) rfl

/-- C7 counterexample: at a concrete tool call with unparsable JSON
arguments, the execution runtime's `_extract_tool_calls` emits the call with
empty `{}` arguments and no `__invalid_arguments__` key, contradicting the
claim that every parsing path surfaces the parse error to the LLM. -/
theorem extract_tool_calls_counterexample :
    extract_tool_calls (fun _ => .error "Expecting value: line 1 column 1 (char 0)")
        ["gmail_send_email"]
        [⟨some "call_1", some "gmail_send_email", .pyStr "not json"⟩]
      = [⟨some "call_1", "gmail_send_email", .nil⟩]
      ∧ JObj.hasKey "__invalid_arguments__"
          ((extract_tool_calls (fun _ => .error "Expecting value: line 1 column 1 (char 0)")
            ["gmail_send_email"]
            [⟨some "call_1", some "gmail_send_email", .pyStr "not json"⟩]).headD
              ⟨none, "", .nil⟩).arguments = false :=
  ⟨by decide, by decide⟩

/-! ## Execution agent loop (`server/agents/execution_agent/runtime.py`) -/

mutual
/-- A value produced by `_freeze_for_signature`: scalars and nested tuples. -/
inductive Frozen where
  | null
  | fbool (b : Bool)
  | num (n : Int)
  | str (s : String)
  | tup (xs : FrozenList)
  deriving DecidableEq

/-- A tuple of frozen values. -/
inductive FrozenList where
  | nil
  | cons (v : Frozen) (rest : FrozenList)
  deriving DecidableEq
end

/-- Ascending insertion by string key, mirroring `tuple(sorted(...))` on the
`(key, frozen_value)` pairs of a dict (dict keys are unique, so comparing
keys alone decides the order). -/
def insertPairByKey (p : String × Frozen) :
    List (String × Frozen) → List (String × Frozen)
  | [] => [p]
  | q :: qs => if p.1 < q.1 then p :: q :: qs else q :: insertPairByKey p qs

/-- Sort `(key, frozen_value)` pairs by key, ascending. -/
def sortPairsByKey (l : List (String × Frozen)) : List (String × Frozen) :=
  l.foldr insertPairByKey []

/-- Encode each `(key, value)` pair as the 2-tuple Python builds for it. -/
def pairsToFrozenList : List (String × Frozen) → FrozenList
  | [] => .nil
  | (k, v) :: rest => .cons (.tup (.cons (.str k) (.cons v .nil))) (pairsToFrozenList rest)

mutual
/-- `_freeze_for_signature`: dicts become key-sorted tuples of `(key, value)`
2-tuples, lists become tuples, scalars stay themselves.  (Arguments are
parsed JSON, so Python's set branch is unreachable.) -/
def freezeVal : JVal → Frozen
  | .null => .null
  | .jbool b => .fbool b
  | .num n => .num n
  | .str s => .str s
  | .arr xs => .tup (freezeArr xs)
  | .obj fs => .tup (pairsToFrozenList (sortPairsByKey (freezeObjPairs fs)))

/-- Freeze every element of a JSON array. -/
def freezeArr : JArr → FrozenList
  | .nil => .nil
  | .cons v rest => .cons (freezeVal v) (freezeArr rest)

/-- Freeze every value of a JSON object, keeping the key order. -/
def freezeObjPairs : JObj → List (String × Frozen)
  | .nil => []
  | .cons k v rest => (k, freezeVal v) :: freezeObjPairs rest
end

/-- A plan signature: `(normalized_assistant_content, ((name, frozen_args), ...))`. -/
abbrev PlanSig := String × List (String × Frozen)

/-- A tool signature: `(name, frozen_args)`. -/
abbrev ToolSig := String × Frozen

/-- `_build_plan_signature(content, tool_calls)`. -/
def build_plan_signature (content : String) (toolCalls : List ParsedToolCall) : PlanSig :=
  (pyStrip content, toolCalls.map fun c => (c.name, freezeVal (.obj c.arguments)))

/-- `_build_tool_signature(name, arguments)`. -/
def build_tool_signature (name : String) (arguments : JObj) : ToolSig :=
  (name, freezeVal (.obj arguments))

/-- `plan_signatures.get(sig, 0)`. -/
def lookupCount (sig : PlanSig) : List (PlanSig × Nat) → Nat
  | [] => 0
  | (s, n) :: rest => if s = sig then n else lookupCount sig rest

/-- `plan_signatures[sig] = n`. -/
def storeCount (sig : PlanSig) (n : Nat) : List (PlanSig × Nat) → List (PlanSig × Nat)
  | [] => [(sig, n)]
  | (s, m) :: rest => if s = sig then (sig, n) :: rest else (s, m) :: storeCount sig n rest

/-- A message in the execution loop's conversation. -/
inductive Msg where
  | user (content : String)
  | assistant (content : String) (toolCalls : List RawToolCall)
  | tool (callId : String) (content : String)
  deriving DecidableEq

/-- Python `a or b` for an optional string id (`None` and `""` are falsy). -/
def orElseStr (a : Option String) (b : String) : String :=
  match a with
  | some s => if s = "" then b else s
  | none => b

/-- `dict.get(key)` on a Python dict. -/
def JObj.get (key : String) : JObj → Option JVal
  | .nil => none
  | .cons k v rest => if k = key then some v else JObj.get key rest

/-- `result.get("error") if isinstance(result, dict) else str(result)`;
`pyStrFn` is the oracle for Python `str()`. -/
def errorDetail (pyStrFn : JVal → String) : JVal → JVal
  | .obj fields => (JObj.get "error" fields).getD .null
  | v => .str (pyStrFn v)

/-- `_format_tool_result(tool_name, success, result, arguments)`; `jsonDumps`
is the oracle for `safe_json_dump`/`json.dumps`. -/
def format_tool_result (jsonDumps : JVal → String) (pyStrFn : JVal → String)
    (toolName : String) (success : Bool) (result : JVal) (arguments : JObj) : String :=
  if success then
    jsonDumps (.obj (.cons "tool" (.str toolName) (.cons "status" (.str "success")
      (.cons "arguments" (.obj arguments) (.cons "result" result .nil)))))
  else
    jsonDumps (.obj (.cons "tool" (.str toolName) (.cons "status" (.str "error")
      (.cons "arguments" (.obj arguments)
        (.cons "error" (errorDetail pyStrFn result) .nil)))))

/-- The environment of one `ExecutionAgentRuntime.execute` run: the LLM, the
tool registry, the JSON oracles and the agent's name.  The LLM is a function
of the current message list and always returns an assistant message, modelled
as its content (`""` for `None`) and its raw tool calls. -/
structure ExecEnv where
  llm : List Msg → String × List RawToolCall
  execTool : String → JObj → Bool × JVal
  jsonLoads : String → Except String JVal
  jsonDumps : JVal → String
  pyStrFn : JVal → String
  knownTools : List String
  agentName : String

/-- `ExecutionResult`. -/
structure ExecutionResult where
  agent_name : String
  success : Bool
  response : String
  error : Option String
  tools_executed : List String
  deriving DecidableEq

/-- The mutable state threaded through the iterations of `execute`. -/
structure LoopState where
  messages : List Msg
  toolsExecuted : List String
  planSigs : List (PlanSig × Nat)
  executedSigs : List ToolSig
  deriving DecidableEq

/-- `MAX_TOOL_ITERATIONS = 5`. -/
def MAX_TOOL_ITERATIONS : Nat := 5

/-- `_REPEATED_PLAN_THRESHOLD = 2`. -/
def REPEATED_PLAN_THRESHOLD : Nat := 2

/-- The `for tool_call in parsed_tool_calls` body: skip unnamed calls and
`__invalid_arguments__` rejections (appending the corresponding tool
message), stop on a repeated tool signature, otherwise execute the tool and
append its result message.  Returns the updated state and, when stopping
early, the final response. -/
def runToolCalls (env : ExecEnv) (assistantContent : String) :
    LoopState → List ParsedToolCall → LoopState × Option String
  | st, [] => (st, none)
  | st, call :: rest =>
    if call.name = "" then
      let failure := JVal.obj (.cons "error"
        (.str "Tool call missing name; unable to execute.") .nil)
      let msg := Msg.tool (orElseStr call.identifier "unknown_tool")
        (format_tool_result env.jsonDumps env.pyStrFn "<unknown>" false failure
          call.arguments)
      runToolCalls env assistantContent
        { st with messages := st.messages ++ [msg] } rest
    else if JObj.hasKey "__invalid_arguments__" call.arguments then
      let failure := JVal.obj (.cons "error"
        ((JObj.get "__invalid_arguments__" call.arguments).getD .null) .nil)
      let msg := Msg.tool (orElseStr call.identifier call.name)
        (format_tool_result env.jsonDumps env.pyStrFn call.name false failure .nil)
      runToolCalls env assistantContent
        { st with messages := st.messages ++ [msg] } rest
    else
      let sig := build_tool_signature call.name call.arguments
      if sig ∈ st.executedSigs then
        (st, some (if assistantContent = ""
          then "Repeated tool invocation; stopping." else assistantContent))
      else
        let execRes := env.execTool call.name call.arguments
        let msg := Msg.tool (orElseStr call.identifier call.name)
          (format_tool_result env.jsonDumps env.pyStrFn call.name execRes.1 execRes.2
            call.arguments)
        runToolCalls env assistantContent
          { st with
            executedSigs := st.executedSigs ++ [sig],
            toolsExecuted := st.toolsExecuted ++ [call.name],
            messages := st.messages ++ [msg] } rest

/-- The assistant content of this iteration's LLM reply. -/
def llmContent (env : ExecEnv) (st : LoopState) : String :=
  (env.llm st.messages).1

/-- The raw tool calls of this iteration's LLM reply. -/
def llmRaw (env : ExecEnv) (st : LoopState) : List RawToolCall :=
  (env.llm st.messages).2

/-- The parsed tool calls accepted this iteration (`_extract_tool_calls`
followed by the single-tool-per-step truncation). -/
def acceptedCalls (env : ExecEnv) (st : LoopState) : List ParsedToolCall :=
  let parsedAll := extract_tool_calls env.jsonLoads env.knownTools (llmRaw env st)
  if 1 < parsedAll.length then parsedAll.take 1 else parsedAll

/-- The raw tool calls recorded on the assistant message (truncated together
with the parsed ones). -/
def keptRaw (env : ExecEnv) (st : LoopState) : List RawToolCall :=
  let parsedAll := extract_tool_calls env.jsonLoads env.knownTools (llmRaw env st)
  if 1 < parsedAll.length then (llmRaw env st).take 1 else llmRaw env st

/-- A successful `ExecutionResult` carrying the tools executed so far. -/
def mkSuccessResult (env : ExecEnv) (st : LoopState) (finalResponse : String) :
    ExecutionResult :=
  { agent_name := env.agentName, success := true, response := finalResponse,
    error := none, tools_executed := st.toolsExecuted }

/-- The outcome of one loop iteration: a final result or the next state. -/
inductive StepOut where
  | done (r : ExecutionResult)
  | next (st : LoopState)
  deriving DecidableEq

/-- One iteration of the `for iteration in range(MAX_TOOL_ITERATIONS)` body:
call the LLM, extract and truncate tool calls, append the assistant entry,
bump the plan-signature count (a signature tuple is always truthy), then stop
on no tool calls or on a repeated plan, else run the tool calls. -/
def iterStep (env : ExecEnv) (st : LoopState) : StepOut :=
  let content := llmContent env st
  let parsed := acceptedCalls env st
  let stA := { st with messages := st.messages ++ [Msg.assistant content (keptRaw env st)] }
  let sig := build_plan_signature content parsed
  let newCount := lookupCount sig stA.planSigs + 1
  let stB := { stA with planSigs := storeCount sig newCount stA.planSigs }
  if parsed = [] then
    .done (mkSuccessResult env stB (if content = "" then "No action required." else content))
  else if REPEATED_PLAN_THRESHOLD ≤ newCount then
    .done (mkSuccessResult env stB
      (if content = "" then "Plan repeated; no further action taken." else content))
  else
    match runToolCalls env content stB parsed with
    | (stC, some finalResponse) => .done (mkSuccessResult env stC finalResponse)
    | (stC, none) => .next stC

/-- The iteration-limit failure: the `for`/`else` clause raises
`RuntimeError("Reached tool iteration limit without final response")`, which
the `except RuntimeError` handler turns into a failed `ExecutionResult`. -/
def limitResult (env : ExecEnv) : ExecutionResult :=
  { agent_name := env.agentName, success := false,
    response := "Failed to complete task: Reached tool iteration limit without final response",
    error := some "Reached tool iteration limit without final response",
    tools_executed := [] }

/-- The bounded iteration of `execute`. -/
def execLoop (env : ExecEnv) : Nat → LoopState → ExecutionResult
  | 0, _ => limitResult env
  | fuel + 1, st =>
    match iterStep env st with
    | .done r => r
    | .next st' => execLoop env fuel st'

/-- The state at the start of `execute`: the instruction seeded as the only
message, and empty tool history and signature stores. -/
def initialState (instructions : String) : LoopState :=
  { messages := [Msg.user instructions], toolsExecuted := [],
    planSigs := [], executedSigs := [] }

/-- `ExecutionAgentRuntime.execute(instructions)`. -/
def execute (env : ExecEnv) (instructions : String) : ExecutionResult :=
  execLoop env MAX_TOOL_ITERATIONS (initialState instructions)

/-- Iterate `iterStep` a fixed number of times, `none` as soon as an
iteration produces a final result. -/
def iterN (env : ExecEnv) : Nat → LoopState → Option LoopState
  | 0, st => some st
  | n + 1, st =>
    match iterStep env st with
    | .done _ => none
    | .next st' => iterN env n st'

lemma runToolCalls_planSigs (env : ExecEnv) (c : String) :
    ∀ (calls : List ParsedToolCall) (st : LoopState),
      ((runToolCalls env c st calls).1).planSigs = st.planSigs := by
  intro calls
  induction calls with
  | nil => intro st; rfl
  | cons call rest ih =>
    intro st
    simp only [runToolCalls]
    by_cases h1 : call.name = ""
    · rw [if_pos h1]
      exact ih _
    · rw [if_neg h1]
      by_cases h2 : JObj.hasKey "__invalid_arguments__" call.arguments = true
      · rw [if_pos h2]
        exact ih _
      · rw [if_neg h2]
        by_cases h3 : build_tool_signature call.name call.arguments ∈ st.executedSigs
        · rw [if_pos h3]
        · rw [if_neg h3]
          exact ih _

lemma runToolCalls_single_none (env : ExecEnv) (c : String) (st : LoopState)
    (pc : ParsedToolCall) (h : st.executedSigs = []) :
    ((runToolCalls env c st [pc]).2) = none := by
  simp only [runToolCalls]
  by_cases h1 : pc.name = ""
  · rw [if_pos h1]
  · rw [if_neg h1]
    by_cases h2 : JObj.hasKey "__invalid_arguments__" pc.arguments = true
    · rw [if_pos h2]
    · rw [if_neg h2]
      rw [if_neg (by rw [h]; exact List.not_mem_nil _)]

lemma lookupCount_storeCount (sig : PlanSig) (n : Nat) :
    ∀ l, lookupCount sig (storeCount sig n l) = n := by
  intro l
  induction l with
  | nil => simp [storeCount, lookupCount]
  | cons p rest ih =>
    obtain ⟨s, m⟩ := p
    simp only [storeCount]
    by_cases h : s = sig
    · rw [if_pos h]
      simp [lookupCount]
    · rw [if_neg h]
      simp only [lookupCount, h, if_false]
      exact ih

lemma iterStep_plan_repeat (env : ExecEnv) (st : LoopState)
    (hcalls : acceptedCalls env st ≠ [])
    (hcount : REPEATED_PLAN_THRESHOLD ≤
      lookupCount (build_plan_signature (llmContent env st) (acceptedCalls env st))
        st.planSigs + 1) :
    iterStep env st = .done
      { agent_name := env.agentName, success := true,
        response := (if llmContent env st = ""
          then "Plan repeated; no further action taken." else llmContent env st),
        error := none, tools_executed := st.toolsExecuted } := by
  simp only [iterStep]
  rw [if_neg hcalls, if_pos hcount]
  rfl

lemma execLoop_done (env : ExecEnv) {st : LoopState} {r : ExecutionResult}
    (h : iterStep env st = .done r) :
    ∀ fuel, 1 ≤ fuel → execLoop env fuel st = r := by
  intro fuel hf
  cases fuel with
  | zero => omega
  | succ f => simp [execLoop, h]

lemma llmContent_const {env : ExecEnv} {c : String} {raws : List RawToolCall}
    (hllm : ∀ msgs, env.llm msgs = (c, raws)) (st : LoopState) :
    llmContent env st = c := by
  simp [llmContent, hllm]

lemma acceptedCalls_const {env : ExecEnv} {c : String} {raws : List RawToolCall}
    {parsedAll : List ParsedToolCall}
    (hllm : ∀ msgs, env.llm msgs = (c, raws))
    (hx : extract_tool_calls env.jsonLoads env.knownTools raws = parsedAll)
    (hlen : ¬ 1 < parsedAll.length) (st : LoopState) :
    acceptedCalls env st = parsedAll := by
  simp [acceptedCalls, llmRaw, hllm, hx, hlen]

lemma execLoop_const_no_tools {env : ExecEnv} {c : String} {raws : List RawToolCall}
    (hllm : ∀ msgs, env.llm msgs = (c, raws))
    (hx : extract_tool_calls env.jsonLoads env.knownTools raws = []) (instr : String) :
    ∀ fuel, 1 ≤ fuel →
      execLoop env fuel (initialState instr)
        = { agent_name := env.agentName, success := true,
            response := (if c = "" then "No action required." else c),
            error := none, tools_executed := [] } := by
  have hstep : iterStep env (initialState instr)
      = .done
        { agent_name := env.agentName, success := true,
          response := (if c = "" then "No action required." else c),
          error := none, tools_executed := [] } := by
    have hacc := acceptedCalls_const hllm hx (by simp) (initialState instr)
    have hcont := llmContent_const hllm (initialState instr)
    simp only [iterStep, hacc, hcont, if_pos rfl]
    rfl
  intro fuel hf
  exact execLoop_done env hstep fuel hf

lemma iterStep_const_single {env : ExecEnv} {c : String} {raws : List RawToolCall}
    {pc : ParsedToolCall}
    (hllm : ∀ msgs, env.llm msgs = (c, raws))
    (hx : extract_tool_calls env.jsonLoads env.knownTools raws = [pc])
    (st : LoopState)
    (hsig : lookupCount (build_plan_signature c [pc]) st.planSigs = 0)
    (hexec : st.executedSigs = []) :
    ∃ st', iterStep env st = .next st'
      ∧ st'.planSigs = storeCount (build_plan_signature c [pc]) 1 st.planSigs := by
  have hacc := acceptedCalls_const hllm hx (by simp) st
  have hcont := llmContent_const hllm st
  simp only [iterStep, hacc, hcont]
  rw [if_neg (by simp : ¬ ([pc] : List ParsedToolCall) = [])]
  have hsig' : lookupCount (build_plan_signature c [pc])
      ({ st with messages := st.messages ++ [Msg.assistant c (keptRaw env st)] } : LoopState).planSigs = 0 := hsig
  rw [hsig']
  rw [if_neg (by simp [REPEATED_PLAN_THRESHOLD])]
  set stB : LoopState :=
    { st with
      messages := st.messages ++ [Msg.assistant c (keptRaw env st)],
      planSigs := storeCount (build_plan_signature c [pc]) (0 + 1) st.planSigs } with hstB
  have hnone : (runToolCalls env c stB [pc]).2 = none :=
    runToolCalls_single_none env c stB pc (by rw [hstB]; exact hexec)
  cases hrun : runToolCalls env c stB [pc] with
  | mk st2 opt =>
    rw [hrun] at hnone
    simp only at hnone
    subst hnone
    refine ⟨st2, rfl, ?_⟩
    have := runToolCalls_planSigs env c [pc] stB
    rw [hrun] at this
    simpa [hstB] using this

lemma execLoop_const_single {env : ExecEnv} {c : String} {raws : List RawToolCall}
    {pc : ParsedToolCall}
    (hllm : ∀ msgs, env.llm msgs = (c, raws))
    (hx : extract_tool_calls env.jsonLoads env.knownTools raws = [pc]) (instr : String) :
    ∀ fuel, 2 ≤ fuel →
      (execLoop env fuel (initialState instr)).success = true
      ∧ (execLoop env fuel (initialState instr)).response
          = (if c = "" then "Plan repeated; no further action taken." else c) := by
  obtain ⟨st1, hstep1, hplan1⟩ := iterStep_const_single hllm hx (initialState instr)
    (by simp [initialState, lookupCount]) (by simp [initialState])
  have hcount1 : lookupCount (build_plan_signature c [pc]) st1.planSigs = 1 := by
    rw [hplan1]
    exact lookupCount_storeCount _ _ _
  have hacc1 := acceptedCalls_const hllm hx (by simp) st1
  have hcont1 := llmContent_const hllm st1
  have hstep2 := iterStep_plan_repeat env st1
    (by rw [hacc1]; simp)
    (by rw [hacc1, hcont1, hcount1]; simp [REPEATED_PLAN_THRESHOLD])
  intro fuel hf
  cases fuel with
  | zero => omega
  | succ f =>
    have hf' : 1 ≤ f := by omega
    have : execLoop env (f + 1) (initialState instr) = execLoop env f st1 := by
      simp [execLoop, hstep1]
    rw [this, execLoop_done env hstep2 f hf']
    rw [hcont1] at hstep2 ⊢
    constructor
    · rfl
    · rfl

lemma execLoop_of_iterN (env : ExecEnv) :
    ∀ (fuel : Nat) (st st' : LoopState), iterN env fuel st = some st' →
      execLoop env fuel st = limitResult env := by
  intro fuel
  induction fuel with
  | zero => intro st st' h; rfl
  | succ f ih =>
    intro st st' h
    simp only [iterN] at h
    cases hstep : iterStep env st with
    | done r =>
      rw [hstep] at h
      simp at h
    | next st2 =>
      rw [hstep] at h
      simp only [execLoop, hstep]
      exact ih st2 st' h

/-- C2 (amended): when an iteration's plan signature reaches
`REPEATED_PLAN_THRESHOLD = 2` and the iteration has accepted tool calls, the
loop terminates successfully without executing those tool calls, with the
assistant content as the final response when it is non-empty and the fixed
fallback text `"Plan repeated; no further action taken."` when it is empty.
Consequently a mock LLM that always returns the same content and no tool
calls succeeds after one iteration, and one that always returns the same
single tool call succeeds after at most two iterations. -/
theorem execute_plan_repeat_spec :
    (∀ (env : ExecEnv) (st : LoopState),
        acceptedCalls env st ≠ [] →
        REPEATED_PLAN_THRESHOLD ≤
          lookupCount (build_plan_signature (llmContent env st) (acceptedCalls env st))
            st.planSigs + 1 →
        iterStep env st = .done
          { agent_name := env.agentName, success := true,
            response := (if llmContent env st = ""
              then "Plan repeated; no further action taken." else llmContent env st),
            error := none, tools_executed := st.toolsExecuted })
    ∧ (∀ (env : ExecEnv) (st : LoopState) (r : ExecutionResult),
        iterStep env st = .done r → ∀ fuel, 1 ≤ fuel → execLoop env fuel st = r)
    ∧ (∀ (env : ExecEnv) (c : String) (raws : List RawToolCall) (instr : String),
        (∀ msgs, env.llm msgs = (c, raws)) →
        extract_tool_calls env.jsonLoads env.knownTools raws = [] →
        ∀ fuel, 1 ≤ fuel →
          execLoop env fuel (initialState instr)
            = { agent_name := env.agentName, success := true,
                response := (if c = "" then "No action required." else c),
                error := none, tools_executed := [] })
    ∧ (∀ (env : ExecEnv) (c : String) (raws : List RawToolCall) (pc : ParsedToolCall)
        (instr : String),
        (∀ msgs, env.llm msgs = (c, raws)) →
        extract_tool_calls env.jsonLoads env.knownTools raws = [pc] →
        ∀ fuel, 2 ≤ fuel →
          (execLoop env fuel (initialState instr)).success = true
          ∧ (execLoop env fuel (initialState instr)).response
              = (if c = "" then "Plan repeated; no further action taken." else c)) :=
  ⟨fun env st h1 h2 => iterStep_plan_repeat env st h1 h2,
   fun env _ _ h fuel hf => execLoop_done env h fuel hf,
   fun _ _ _ instr hllm hx => execLoop_const_no_tools hllm hx instr,
   fun _ _ _ _ instr hllm hx => execLoop_const_single hllm hx instr⟩

/-- A mock environment whose LLM always answers with empty assistant content
and the same single `wait` tool call. -/
def planRepeatEnv : ExecEnv :=
  { llm := fun _ => ("", [⟨some "c1", some "wait", .pyNone⟩]),
    execTool := fun _ _ => (true, .null),
    jsonLoads := fun _ => .error "unused",
    jsonDumps := fun _ => "",
    pyStrFn := fun _ => "",
    knownTools := ["wait"],
    agentName := "agent" }

/-- C2 counterexample: under `planRepeatEnv` the loop stops at the second
observation of the plan signature with `success = true`, but the final
response is the fallback text, not the (empty) assistant content — so the
claim's "the current assistant content as the final response" fails. -/
theorem execute_plan_repeat_counterexample :
    (∀ msgs, (planRepeatEnv.llm msgs).1 = "")
      ∧ execute planRepeatEnv "go"
          = ⟨"agent", true, "Plan repeated; no further action taken.", none, ["wait"]⟩
      ∧ (execute planRepeatEnv "go").response ≠ "" := by
  have he : execute planRepeatEnv "go"
      = ⟨"agent", true, "Plan repeated; no further action taken.", none, ["wait"]⟩ := rfl
  refine ⟨fun _ => rfl, he, ?_⟩
  rw [he]
  decide

/-- A mock environment whose LLM always returns the same content and no tool
calls. -/
def noToolsEnv : ExecEnv :=
  { llm := fun _ => ("", []),
    execTool := fun _ _ => (true, .null),
    jsonLoads := fun _ => .error "unused",
    jsonDumps := fun _ => "",
    pyStrFn := fun _ => "",
    knownTools := [],
    agentName := "agent" }

/-- Witness for C2: the constant no-tool-calls mock succeeds within a single
iteration. -/
theorem execute_plan_repeat_spec_witness :
    execLoop noToolsEnv 1 (initialState "hi")
      = ⟨"agent", true, "No action required.", none, []⟩ := by
  have h := execute_plan_repeat_spec.2.2.1 noToolsEnv "" [] "hi"
    (fun _ => rfl) rfl 1 (by decide)
  simpa using h

/-- C5 (amended): when all `MAX_TOOL_ITERATIONS` iterations complete without
any stop condition (the LLM keeps emitting fresh tool calls), `execute`
returns a failed `ExecutionResult` whose error is
`"Reached tool iteration limit without final response"`. -/
theorem execute_iteration_limit_spec :
    ∀ (env : ExecEnv) (instructions : String),
      (iterN env MAX_TOOL_ITERATIONS (initialState instructions)).isSome = true →
      execute env instructions
        = { agent_name := env.agentName, success := false,
            response :=
              "Failed to complete task: Reached tool iteration limit without final response",
            error := some "Reached tool iteration limit without final response",
            tools_executed := [] } := by
  intro env instr h
  obtain ⟨st', hst'⟩ := Option.isSome_iff_exists.mp h
  exact execLoop_of_iterN env MAX_TOOL_ITERATIONS _ st' hst'

/-- A mock environment whose LLM emits a fresh tool call (a different known
tool name) on every iteration, so no stop condition ever fires. -/
def freshToolEnv : ExecEnv :=
  { llm := fun msgs =>
      ("", [⟨some "c",
        some (["t1", "t2", "t3", "t4", "t5"].getD ((msgs.length - 1) / 2) "t0"),
        .pyNone⟩]),
    execTool := fun _ _ => (true, .null),
    jsonLoads := fun _ => .error "unused",
    jsonDumps := fun _ => "",
    pyStrFn := fun _ => "",
    knownTools := ["t1", "t2", "t3", "t4", "t5"],
    agentName := "agent" }

/-- The state of the `freshToolEnv` run after 1 iteration. -/
def freshState1 : LoopState :=
  ⟨[.user "go",
      .assistant "" [⟨some "c", some "t1", .pyNone⟩],
      .tool "c" ""],
    ["t1"],
    [(("", [("t1", .tup .nil)]), 1)],
    [("t1", .tup .nil)]⟩

/-- The state of the `freshToolEnv` run after 2 iterations. -/
def freshState2 : LoopState :=
  ⟨[.user "go",
      .assistant "" [⟨some "c", some "t1", .pyNone⟩],
      .tool "c" "",
      .assistant "" [⟨some "c", some "t2", .pyNone⟩],
      .tool "c" ""],
    ["t1", "t2"],
    [(("", [("t1", .tup .nil)]), 1),
      (("", [("t2", .tup .nil)]), 1)],
    [("t1", .tup .nil), ("t2", .tup .nil)]⟩

/-- The state of the `freshToolEnv` run after 3 iterations. -/
def freshState3 : LoopState :=
  ⟨[.user "go",
      .assistant "" [⟨some "c", some "t1", .pyNone⟩],
      .tool "c" "",
      .assistant "" [⟨some "c", some "t2", .pyNone⟩],
      .tool "c" "",
      .assistant "" [⟨some "c", some "t3", .pyNone⟩],
      .tool "c" ""],
    ["t1", "t2", "t3"],
    [(("", [("t1", .tup .nil)]), 1),
      (("", [("t2", .tup .nil)]), 1),
      (("", [("t3", .tup .nil)]), 1)],
    [("t1", .tup .nil), ("t2", .tup .nil), ("t3", .tup .nil)]⟩

/-- The state of the `freshToolEnv` run after 4 iterations. -/
def freshState4 : LoopState :=
  ⟨[.user "go",
      .assistant "" [⟨some "c", some "t1", .pyNone⟩],
      .tool "c" "",
      .assistant "" [⟨some "c", some "t2", .pyNone⟩],
      .tool "c" "",
      .assistant "" [⟨some "c", some "t3", .pyNone⟩],
      .tool "c" "",
      .assistant "" [⟨some "c", some "t4", .pyNone⟩],
      .tool "c" ""],
    ["t1", "t2", "t3", "t4"],
    [(("", [("t1", .tup .nil)]), 1),
      (("", [("t2", .tup .nil)]), 1),
      (("", [("t3", .tup .nil)]), 1),
      (("", [("t4", .tup .nil)]), 1)],
    [("t1", .tup .nil), ("t2", .tup .nil), ("t3", .tup .nil), ("t4", .tup .nil)]⟩

/-- The state of the `freshToolEnv` run after 5 iterations. -/
def freshState5 : LoopState :=
  ⟨[.user "go",
      .assistant "" [⟨some "c", some "t1", .pyNone⟩],
      .tool "c" "",
      .assistant "" [⟨some "c", some "t2", .pyNone⟩],
      .tool "c" "",
      .assistant "" [⟨some "c", some "t3", .pyNone⟩],
      .tool "c" "",
      .assistant "" [⟨some "c", some "t4", .pyNone⟩],
      .tool "c" "",
      .assistant "" [⟨some "c", some "t5", .pyNone⟩],
      .tool "c" ""],
    ["t1", "t2", "t3", "t4", "t5"],
    [(("", [("t1", .tup .nil)]), 1),
      (("", [("t2", .tup .nil)]), 1),
      (("", [("t3", .tup .nil)]), 1),
      (("", [("t4", .tup .nil)]), 1),
      (("", [("t5", .tup .nil)]), 1)],
    [("t1", .tup .nil), ("t2", .tup .nil), ("t3", .tup .nil), ("t4", .tup .nil),
      ("t5", .tup .nil)]⟩

/-- Witness for C5: under `freshToolEnv` all five iterations run without a
stop condition, and `execute` returns the iteration-limit failure. -/
theorem execute_iteration_limit_spec_witness :
    (iterN freshToolEnv MAX_TOOL_ITERATIONS (initialState "go")).isSome = true
      ∧ execute freshToolEnv "go"
          = ⟨"agent", false,
              "Failed to complete task: Reached tool iteration limit without final response",
              some "Reached tool iteration limit without final response", []⟩ := by
  have e1 : iterStep freshToolEnv (initialState "go") = .next freshState1 := by decide
  have e2 : iterStep freshToolEnv freshState1 = .next freshState2 := by decide
  have e3 : iterStep freshToolEnv freshState2 = .next freshState3 := by decide
  have e4 : iterStep freshToolEnv freshState3 = .next freshState4 := by decide
  have e5 : iterStep freshToolEnv freshState4 = .next freshState5 := by decide
  have hiter : iterN freshToolEnv MAX_TOOL_ITERATIONS (initialState "go")
      = some freshState5 := by
    show iterN freshToolEnv 5 (initialState "go") = some freshState5
    simp only [iterN, e1, e2, e3, e4, e5]
  have hsome : (iterN freshToolEnv MAX_TOOL_ITERATIONS (initialState "go")).isSome = true := by
    rw [hiter]
    rfl
  refine ⟨hsome, ?_⟩
  have h := execute_iteration_limit_spec freshToolEnv "go" hsome
  simpa using h

/-- C5 counterexample: under `freshToolEnv` the loop exhausts its iterations
and the recorded error is
`"Reached tool iteration limit without final response"`, not the claim's
exact string `"Reached tool iteration limit"`. -/
theorem execute_iteration_limit_counterexample :
    (execute freshToolEnv "go").error
        = some "Reached tool iteration limit without final response"
      ∧ (execute freshToolEnv "go").error ≠ some "Reached tool iteration limit" := by
  have e1 : iterStep freshToolEnv (initialState "go") = .next freshState1 := by decide
  have e2 : iterStep freshToolEnv freshState1 = .next freshState2 := by decide
  have e3 : iterStep freshToolEnv freshState2 = .next freshState3 := by decide
  have e4 : iterStep freshToolEnv freshState3 = .next freshState4 := by decide
  have e5 : iterStep freshToolEnv freshState4 = .next freshState5 := by decide
  have hx : execute freshToolEnv "go" = limitResult freshToolEnv := by
    show execLoop freshToolEnv 5 (initialState "go") = limitResult freshToolEnv
    simp only [execLoop, e1, e2, e3, e4, e5]
  rw [hx]
  exact ⟨rfl, by decide⟩

/-! ## Trigger scheduler (`server/services/trigger_scheduler.py`)

Instants are modelled as integer seconds (`parse_iso` applied to the stored
ISO timestamps).  The `services/triggers` store itself is not under `src/`;
its operations are modelled from the spec below where needed. -/

/-- A stored trigger record (`TriggerRecord`).  `next_trigger` holds the
parsed next-fire instant (`None` when cleared). -/
structure TriggerRecord where
  id : Nat
  agent_name : String
  payload : String
  recurrence_rule : Option String
  next_trigger : Option Int
  timezone : Option String
  start_time : Option String
  status : String
  last_error : Option String
  deriving DecidableEq

/-- `if trigger.recurrence_rule:` — `None` and the empty string are falsy. -/
def hasRecurrence (t : TriggerRecord) : Bool :=
  match t.recurrence_rule with
  | some rule => rule ≠ ""
  | none => false

/-- The scheduler state observed by the claims: the in-flight id set and the
history of dispatched executions. -/
structure SchedState where
  inFlight : List Nat
  dispatched : List Nat
  deriving DecidableEq

/-- The per-trigger body of `_poll_once`: under the in-flight lock, skip a
trigger already in flight, skip one not yet due this tick, otherwise insert
its id into the in-flight set; then spawn the execution task (recorded by
appending the id to `dispatched`).  The lock-guarded check-and-insert is one
atomic step of this sequential model. -/
def pollStep (pollInterval now : Int) (st : SchedState) (t : TriggerRecord) : SchedState :=
  if t.id ∈ st.inFlight then st
  else
    match t.next_trigger with
    | some nextFire =>
      if pollInterval < nextFire - now then st
      else { inFlight := t.id :: st.inFlight, dispatched := st.dispatched ++ [t.id] }
    | none => { inFlight := t.id :: st.inFlight, dispatched := st.dispatched ++ [t.id] }

/-- One `_poll_once` pass over the due triggers. -/
def pollOnce (pollInterval now : Int) (due : List TriggerRecord) (st : SchedState) :
    SchedState :=
  due.foldl (pollStep pollInterval now) st

/-- The `finally` cleanup of `_execute_trigger`: discard the id from the
in-flight set. -/
def finishTrigger (tid : Nat) (st : SchedState) : SchedState :=
  { st with inFlight := st.inFlight.filter (fun x => decide (x ≠ tid)) }

/-- The trigger is actually due this tick
(`next_fire − now ≤ poll_interval`, or no stored next fire). -/
def IsDueNow (pollInterval now : Int) (t : TriggerRecord) : Prop :=
  match t.next_trigger with
  | some nextFire => nextFire - now ≤ pollInterval
  | none => True

lemma pollStep_inflight_frozen {pollInterval now : Int} {x : Nat}
    {st : SchedState} (t : TriggerRecord) (hx : x ∈ st.inFlight) :
    x ∈ (pollStep pollInterval now st t).inFlight
      ∧ ((pollStep pollInterval now st t).dispatched).count x = st.dispatched.count x := by
  unfold pollStep
  by_cases hin : t.id ∈ st.inFlight
  · rw [if_pos hin]
    exact ⟨hx, rfl⟩
  · rw [if_neg hin]
    have hne : t.id ≠ x := fun h => hin (h ▸ hx)
    have h0 : List.count x [t.id] = 0 := by
      rw [List.count_eq_zero]
      simp only [List.mem_singleton]
      exact fun h => hne h.symm
    have hcnt : (st.dispatched ++ [t.id]).count x = st.dispatched.count x := by
      rw [List.count_append, h0, Nat.add_zero]
    cases t.next_trigger with
    | none =>
      dsimp only
      exact ⟨List.mem_cons_of_mem _ hx, hcnt⟩
    | some nextFire =>
      dsimp only
      by_cases hd : pollInterval < nextFire - now
      · rw [if_pos hd]
        exact ⟨hx, rfl⟩
      · rw [if_neg hd]
        exact ⟨List.mem_cons_of_mem _ hx, hcnt⟩

lemma pollOnce_inflight_frozen (pollInterval now : Int) (x : Nat) :
    ∀ (due : List TriggerRecord) (st : SchedState), x ∈ st.inFlight →
      x ∈ (pollOnce pollInterval now due st).inFlight
      ∧ ((pollOnce pollInterval now due st).dispatched).count x = st.dispatched.count x := by
  intro due
  induction due with
  | nil =>
    intro st hx
    exact ⟨hx, rfl⟩
  | cons t rest ih =>
    intro st hx
    have hstep := @pollStep_inflight_frozen pollInterval now x st t hx
    have hrest := ih (pollStep pollInterval now st t) hstep.1
    simp only [pollOnce, List.foldl_cons] at *
    exact ⟨hrest.1, by rw [hrest.2, hstep.2]⟩

lemma pollStep_dispatch {pollInterval now : Int} {st : SchedState}
    {t : TriggerRecord} (hnot : t.id ∉ st.inFlight)
    (hdue : IsDueNow pollInterval now t) :
    pollStep pollInterval now st t
      = { inFlight := t.id :: st.inFlight, dispatched := st.dispatched ++ [t.id] } := by
  unfold pollStep
  rw [if_neg hnot]
  unfold IsDueNow at hdue
  cases hnf : t.next_trigger with
  | none => rfl
  | some nextFire =>
    rw [hnf] at hdue
    dsimp only at hdue ⊢
    rw [if_neg (by omega)]

/-- C3: the scheduler never dispatches a trigger whose id is in the in-flight
set (part 1: an in-flight id is never appended to the dispatch history, and
stays in flight, across a whole poll pass), and a due trigger whose
execution task is still running (its id is never removed) is dispatched
exactly once across any number of consecutive poll ticks (part 2). -/
theorem scheduler_no_duplicate_dispatch :
    (∀ (pollInterval now : Int) (due : List TriggerRecord) (st : SchedState) (x : Nat),
        x ∈ st.inFlight →
        x ∈ (pollOnce pollInterval now due st).inFlight
        ∧ ((pollOnce pollInterval now due st).dispatched).count x
            = st.dispatched.count x)
    ∧ (∀ (pollInterval : Int) (nows : List Int) (t : TriggerRecord) (st : SchedState),
        nows ≠ [] →
        t.id ∉ st.inFlight →
        (∀ now ∈ nows, IsDueNow pollInterval now t) →
        ((nows.foldl (fun s now => pollOnce pollInterval now [t] s) st).dispatched).count t.id
          = st.dispatched.count t.id + 1) := by
  constructor
  · intro pollInterval now due st x hx
    exact pollOnce_inflight_frozen pollInterval now x due st hx
  · intro pollInterval nows t st hne hnot hdue
    cases nows with
    | nil => exact absurd rfl hne
    | cons now0 rest =>
      have hdue0 : IsDueNow pollInterval now0 t := hdue now0 (List.mem_cons_self _ _)
      have hfirst : pollOnce pollInterval now0 [t] st
          = { inFlight := t.id :: st.inFlight, dispatched := st.dispatched ++ [t.id] } := by
        simp only [pollOnce, List.foldl_cons, List.foldl_nil]
        exact pollStep_dispatch hnot hdue0
      have hmem : t.id ∈ (pollOnce pollInterval now0 [t] st).inFlight := by
        rw [hfirst]
        exact List.mem_cons_self _ _
      have hcount1 : ((pollOnce pollInterval now0 [t] st).dispatched).count t.id
          = st.dispatched.count t.id + 1 := by
        rw [hfirst]
        simp [List.count_append, List.count_singleton]
      have hrest : ∀ (ns : List Int) (s : SchedState), t.id ∈ s.inFlight →
          ((ns.foldl (fun s now => pollOnce pollInterval now [t] s) s).dispatched).count t.id
            = s.dispatched.count t.id := by
        intro ns
        induction ns with
        | nil => intro s _; rfl
        | cons n ns' ih =>
          intro s hs
          have h1 := pollOnce_inflight_frozen pollInterval n t.id [t] s hs
          simp only [List.foldl_cons]
          rw [ih _ h1.1, h1.2]
      simp only [List.foldl_cons]
      rw [hrest rest _ hmem, hcount1]

/-- Witness for C3: a concrete due trigger polled three times while its
execution task is still running is dispatched exactly once. -/
theorem scheduler_no_duplicate_dispatch_witness :
    (([0, 10, 20] : List Int).foldl
        (fun s now => pollOnce 10 now
          [⟨7, "a", "p", none, some 5, none, none, "active", none⟩] s)
        ⟨[], []⟩).dispatched.count 7 = ([] : List Nat).count 7 + 1 := by
  have h := scheduler_no_duplicate_dispatch.2 10 [0, 10, 20]
    ⟨7, "a", "p", none, some 5, none, none, "active", none⟩ ⟨[], []⟩
    (by decide) (by decide) (by intro now hn; simp [IsDueNow]; fin_cases hn <;> omega)
  simpa using h

/-- Modelled from the spec: the trigger store's `record_failure` (the
`services/triggers` package is not under `src/`): "On failure: record
`last_error`"; the status is not changed ("`last_error` is set on failure
but does not change status"). -/
def record_failure (t : TriggerRecord) (error : String) : TriggerRecord :=
  { t with last_error := some error }

/-- Modelled from the spec: the trigger store's `schedule_next_occurrence`
(§4.6 execution task step 4): with a recurrence rule, "compute the next
occurrence from the rule ... strictly greater than `fired_at`; write it back
as `next_fire`"; "if no recurrence, set `status = completed` and
`next_fire = null`".  `nextOccurrence` is the RRULE evaluation oracle. -/
def schedule_next_occurrence (nextOccurrence : String → Int → Int)
    (t : TriggerRecord) (firedAt : Int) : TriggerRecord :=
  match t.recurrence_rule with
  | some rule =>
    if rule = "" then { t with status := "completed", next_trigger := none }
    else { t with next_trigger := some (nextOccurrence rule firedAt) }
  | none => { t with status := "completed", next_trigger := none }

/-- Modelled from the spec: the trigger store's `clear_next_fire`: "if
one-shot, clear `next_fire` and do not change status". -/
def clear_next_fire (t : TriggerRecord) : TriggerRecord :=
  { t with next_trigger := none }

/-- `TriggerScheduler._handle_failure` (from the source): record the error,
then advance recurring triggers and clear one-shot triggers. -/
def handle_failure (nextOccurrence : String → Int → Int)
    (t : TriggerRecord) (firedAt : Int) (error : String) : TriggerRecord :=
  let t1 := record_failure t error
  if hasRecurrence t then schedule_next_occurrence nextOccurrence t1 firedAt
  else clear_next_fire t1

/-- C6: after a failed execution the scheduler records `last_error`; a
recurring trigger still has `next_fire` advanced to the next occurrence and
its status unchanged (hence still `active`); a one-shot trigger has
`next_fire` cleared and its status unchanged (in particular it is not marked
`completed`). -/
theorem handle_failure_spec :
    ∀ (nextOcc : String → Int → Int) (t : TriggerRecord) (firedAt : Int) (err : String),
      (handle_failure nextOcc t firedAt err).last_error = some err
      ∧ (∀ rule, t.recurrence_rule = some rule → rule ≠ "" →
          (handle_failure nextOcc t firedAt err).next_trigger
              = some (nextOcc rule firedAt)
            ∧ (handle_failure nextOcc t firedAt err).status = t.status)
      ∧ ((t.recurrence_rule = none ∨ t.recurrence_rule = some "") →
          (handle_failure nextOcc t firedAt err).next_trigger = none
            ∧ (handle_failure nextOcc t firedAt err).status = t.status) := by
  intro nextOcc t firedAt err
  refine ⟨?_, ?_, ?_⟩
  · simp only [handle_failure, record_failure]
    by_cases h : hasRecurrence t = true
    · rw [if_pos h]
      simp only [schedule_next_occurrence]
      cases hr : t.recurrence_rule with
      | none => rfl
      | some rule =>
        dsimp only
        by_cases hrule : rule = ""
        · rw [if_pos hrule]
        · rw [if_neg hrule]
    · rw [if_neg h]
      rfl
  · intro rule hr hrule
    have hrec : hasRecurrence t = true := by
      simp [hasRecurrence, hr, hrule]
    simp only [handle_failure, record_failure, hrec, if_true,
      schedule_next_occurrence, hr]
    rw [if_neg hrule]
    exact ⟨rfl, rfl⟩
  · intro hcase
    have hrec : hasRecurrence t = false := by
      rcases hcase with h | h <;> simp [hasRecurrence, h]
    simp only [handle_failure, record_failure, hrec, Bool.false_eq_true, if_false,
      clear_next_fire]
    exact ⟨by first | rfl | trivial, by first | rfl | trivial⟩

/-- Witness for C6: a concrete recurring trigger with a minutely rule; after
a failed execution `last_error` is set, `next_fire` advances to the oracle's
next occurrence, and the status stays `active`. -/
theorem handle_failure_spec_witness :
    (handle_failure (fun _ t => t + 60)
        ⟨1, "a", "p", some "FREQ=MINUTELY;INTERVAL=1", some 100, none, none,
          "active", none⟩ 100 "boom").last_error = some "boom"
      ∧ (handle_failure (fun _ t => t + 60)
          ⟨1, "a", "p", some "FREQ=MINUTELY;INTERVAL=1", some 100, none, none,
            "active", none⟩ 100 "boom").next_trigger = some 160
      ∧ (handle_failure (fun _ t => t + 60)
          ⟨1, "a", "p", some "FREQ=MINUTELY;INTERVAL=1", some 100, none, none,
            "active", none⟩ 100 "boom").status = "active" := by
  have h := handle_failure_spec (fun _ t => t + 60)
    ⟨1, "a", "p", some "FREQ=MINUTELY;INTERVAL=1", some 100, none, none,
      "active", none⟩ 100 "boom"
  have h2 := h.2.1 "FREQ=MINUTELY;INTERVAL=1" rfl (by decide)
  exact ⟨h.1, h2.1, h2.2⟩

/-! ## Duplicate detector (`server/services/conversation/duplicate_detector.py`)

Time is modelled as integer seconds (`time.time()`); SHA-256 is the Python
standard library and enters as the oracle `hashFn`, applied to the
normalized content exactly as `_compute_hash` does. -/

/-- The accumulator pass of Python `str.split()`: maximal non-whitespace
runs, in order. -/
def wordsAux : List Char → List Char → List (List Char)
  | [], acc => if acc = [] then [] else [acc.reverse]
  | c :: cs, acc =>
    if c.isWhitespace then
      if acc = [] then wordsAux cs [] else acc.reverse :: wordsAux cs []
    else wordsAux cs (c :: acc)

/-- Python `str.split()` with no separator argument. -/
def pySplitWS (l : List Char) : List (List Char) :=
  wordsAux l []

/-- `" ".join(words)`. -/
def joinSpace : List (List Char) → List Char
  | [] => []
  | [w] => w
  | w :: ws => w ++ ' ' :: joinSpace ws

/-- `_normalize_content`: strip, collapse whitespace runs to single spaces,
lowercase. -/
def normalize_content (s : String) : String :=
  String.mk ((joinSpace (pySplitWS (pyStrip s).data)).map Char.toLower)

/-- `MessageFingerprint`. -/
structure MessageFingerprint where
  content_hash : String
  timestamp : Int
  role : String
  normalized_content : String
  deriving DecidableEq

/-- The detector's configuration: `cache_size`, `time_window_seconds`,
`min_content_length`, and the SHA-256 oracle. -/
structure DetectorConfig where
  cache_size : Nat
  time_window_seconds : Int
  min_content_length : Nat
  hashFn : String → String

/-- The LRU cache: an association list ordered oldest first (`OrderedDict`,
`popitem(last=False)` pops the head). -/
abbrev Cache := List (String × MessageFingerprint)

/-- Dict lookup by content hash. -/
def cacheLookup (key : String) : Cache → Option MessageFingerprint
  | [] => none
  | (k, fp) :: rest => if k = key then some fp else cacheLookup key rest

/-- Remove the entry stored under `key`. -/
def removeKey (key : String) : Cache → Cache
  | [] => []
  | (k, fp) :: rest => if k = key then rest else (k, fp) :: removeKey key rest

/-- `OrderedDict.move_to_end(key)`: the stored entry moves to the
most-recently-used end, keeping its stored value. -/
def moveToEnd (key : String) (c : Cache) : Cache :=
  match cacheLookup key c with
  | some fp => removeKey key c ++ [(key, fp)]
  | none => c

/-- `_evict_old_entries`: drop entries older than the time window, then pop
least-recently-used entries from the front until the size bound holds. -/
def evictOld (cfg : DetectorConfig) (now : Int) (c : Cache) : Cache :=
  (c.filter fun e => decide (¬ (e.2.timestamp < now - cfg.time_window_seconds))).drop
    ((c.filter fun e =>
      decide (¬ (e.2.timestamp < now - cfg.time_window_seconds))).length
        - cfg.cache_size)

/-- `_add_to_cache`: move an existing entry to the end (discarding the new
fingerprint) or append a new one, then evict. -/
def addToCache (cfg : DetectorConfig) (now : Int) (fp : MessageFingerprint)
    (c : Cache) : Cache :=
  evictOld cfg now
    (if (cacheLookup fp.content_hash c).isSome then moveToEnd fp.content_hash c
     else c ++ [(fp.content_hash, fp)])

/-- A message handed to the detector: a dict (with optional `role`) or a
plain string. -/
inductive PyMessage where
  | dict (content : String) (role : Option String)
  | str (content : String)
  deriving DecidableEq

/-- `_extract_message_content`. -/
def extract_message_content : PyMessage → String
  | .dict content _ => content
  | .str content => content

/-- `_extract_message_role`: dicts default to `"unknown"`. -/
def extract_message_role : PyMessage → String
  | .dict _ role => role.getD "unknown"
  | .str _ => "unknown"

/-- `role or self._extract_message_role(message)` (`None` and `""` falsy). -/
def effectiveRole (m : PyMessage) (role : Option String) : String :=
  match role with
  | some r => if r = "" then extract_message_role m else r
  | none => extract_message_role m

/-- The content hash of a message. -/
def messageHash (cfg : DetectorConfig) (m : PyMessage) : String :=
  cfg.hashFn (normalize_content (extract_message_content m))

/-- `is_duplicate(message, role, check_role)` at instant `now`: returns the
verdict and the cache as mutated by the eviction pass. -/
def is_duplicate (cfg : DetectorConfig) (now : Int) (m : PyMessage)
    (role : Option String) (checkRole : Bool) (c : Cache) : Bool × Cache :=
  if extract_message_content m = "" then (false, c)
  else if (pyStrip (extract_message_content m)).length < cfg.min_content_length then
    (false, c)
  else
    match cacheLookup (messageHash cfg m) (evictOld cfg now c) with
    | some cached =>
      if checkRole && decide (cached.role ≠ effectiveRole m role) then
        (false, evictOld cfg now c)
      else if now - cached.timestamp ≤ cfg.time_window_seconds then
        (true, evictOld cfg now c)
      else (false, evictOld cfg now c)
    | none => (false, evictOld cfg now c)

/-- The fingerprint `mark_as_seen` and `load_from_transcript` build for a
message at instant `now` (the stored normalized content is the 200-character
preview). -/
def newFingerprint (cfg : DetectorConfig) (now : Int) (m : PyMessage)
    (role : Option String) : MessageFingerprint :=
  { content_hash := cfg.hashFn (normalize_content (extract_message_content m)),
    timestamp := now,
    role := effectiveRole m role,
    normalized_content :=
      String.mk ((normalize_content (extract_message_content m)).data.take 200) }

/-- `mark_as_seen(message, role)` at instant `now`. -/
def mark_as_seen (cfg : DetectorConfig) (now : Int) (m : PyMessage)
    (role : Option String) (c : Cache) : Cache :=
  if extract_message_content m = "" then c
  else if (pyStrip (extract_message_content m)).length < cfg.min_content_length then c
  else addToCache cfg now (newFingerprint cfg now m role) c

/-- `check_and_mark(message, role, check_role)` at instant `now`. -/
def check_and_mark (cfg : DetectorConfig) (now : Int) (m : PyMessage)
    (role : Option String) (checkRole : Bool) (c : Cache) : Bool × Cache :=
  match is_duplicate cfg now m role checkRole c with
  | (true, c1) => (true, c1)
  | (false, c1) => (false, mark_as_seen cfg now m role c1)

/-- The loop body of `load_from_transcript` (over the reversed transcript):
add each usable message's fingerprint, stopping once the cache is full. -/
def loadFromTranscriptAux (cfg : DetectorConfig) (now : Int) :
    List PyMessage → Cache → Cache
  | [], c => c
  | m :: rest, c =>
    if extract_message_content m = ""
        ∨ (pyStrip (extract_message_content m)).length < cfg.min_content_length then
      loadFromTranscriptAux cfg now rest c
    else
      if cfg.cache_size
          ≤ (addToCache cfg now (newFingerprint cfg now m none) c).length then
        addToCache cfg now (newFingerprint cfg now m none) c
      else
        loadFromTranscriptAux cfg now rest
          (addToCache cfg now (newFingerprint cfg now m none) c)

/-- `load_from_transcript(transcript)`: most recent messages first, all
stamped with the current time. -/
def load_from_transcript (cfg : DetectorConfig) (now : Int)
    (transcript : List PyMessage) (c : Cache) : Cache :=
  loadFromTranscriptAux cfg now transcript.reverse c

lemma mem_of_mem_evictOld {cfg : DetectorConfig} {now : Int} {c : Cache}
    {e : String × MessageFingerprint} (h : e ∈ evictOld cfg now c) : e ∈ c := by
  unfold evictOld at h
  exact (List.mem_filter.mp (List.mem_of_mem_drop h)).1

lemma evictOld_length_le (cfg : DetectorConfig) (now : Int) (c : Cache) :
    (evictOld cfg now c).length ≤ cfg.cache_size := by
  unfold evictOld
  rw [List.length_drop]
  omega

lemma cacheLookup_eq_none_iff {k : String} :
    ∀ {c : Cache}, cacheLookup k c = none ↔ ∀ e ∈ c, e.1 ≠ k := by
  intro c
  induction c with
  | nil => simp [cacheLookup]
  | cons e rest ih =>
    obtain ⟨k', fp⟩ := e
    simp only [cacheLookup]
    by_cases h : k' = k
    · rw [if_pos h]
      simp [h]
    · rw [if_neg h]
      rw [ih]
      constructor
      · intro hall e he
        rcases List.mem_cons.mp he with rfl | he
        · exact h
        · exact hall e he
      · intro hall e he
        exact hall e (List.mem_cons_of_mem _ he)

lemma cacheLookup_evict_none {cfg : DetectorConfig} {now : Int} {c : Cache} {k : String}
    (h : cacheLookup k c = none) :
    cacheLookup k (evictOld cfg now c) = none := by
  rw [cacheLookup_eq_none_iff] at h ⊢
  exact fun e he => h e (mem_of_mem_evictOld he)

lemma cacheLookup_append_last {d : Cache} {k : String} {fp : MessageFingerprint}
    (hd : ∀ e ∈ d, e.1 ≠ k) :
    cacheLookup k (d ++ [(k, fp)]) = some fp := by
  induction d with
  | nil => simp [cacheLookup]
  | cons e rest ih =>
    obtain ⟨k', fp'⟩ := e
    have hne : k' ≠ k := hd _ (List.mem_cons_self _ _)
    simp only [List.cons_append, cacheLookup]
    rw [if_neg hne]
    exact ih fun e he => hd e (List.mem_cons_of_mem _ he)

lemma evictOld_append_last {cfg : DetectorConfig} {now : Int} {d : Cache}
    {k : String} {fp : MessageFingerprint}
    (hwin : ¬ (fp.timestamp < now - cfg.time_window_seconds))
    (hcap : 1 ≤ cfg.cache_size) :
    ∃ d', evictOld cfg now (d ++ [(k, fp)]) = d' ++ [(k, fp)] ∧ ∀ e ∈ d', e ∈ d := by
  unfold evictOld
  rw [List.filter_append]
  have hf : List.filter
      (fun e => decide (¬ (e.2.timestamp < now - cfg.time_window_seconds)))
      [(k, fp)] = [(k, fp)] := by
    simp
    omega
  rw [hf]
  refine ⟨(d.filter fun e =>
      decide (¬ (e.2.timestamp < now - cfg.time_window_seconds))).drop
        ((d.filter fun e =>
          decide (¬ (e.2.timestamp < now - cfg.time_window_seconds))).length + 1
            - cfg.cache_size), ?_, ?_⟩
  · rw [List.length_append]
    rw [List.drop_append_of_le_length (by simp; omega)]
    simp
  · intro e he
    exact (List.mem_filter.mp (List.mem_of_mem_drop he)).1

lemma joinSpace_cons_length (w : List Char) (ws : List (List Char)) :
    (joinSpace (w :: ws)).length ≤ w.length + 1 + (joinSpace ws).length := by
  cases ws with
  | nil =>
    simp [joinSpace]
  | cons w2 ws2 =>
    simp [joinSpace, List.length_append]
    omega

lemma wordsAux_join_length : ∀ (l acc : List Char),
    (joinSpace (wordsAux l acc)).length ≤ l.length + acc.length := by
  intro l
  induction l with
  | nil =>
    intro acc
    by_cases h : acc = []
    · simp [wordsAux, h, joinSpace]
    · simp [wordsAux, h, joinSpace]
  | cons c cs ih =>
    intro acc
    simp only [wordsAux]
    by_cases hws : c.isWhitespace = true
    · rw [if_pos hws]
      by_cases hacc : acc = []
      · rw [if_pos hacc]
        have := ih []
        simp only [List.length_cons, List.length_nil] at *
        omega
      · rw [if_neg hacc]
        have h1 := joinSpace_cons_length acc.reverse (wordsAux cs [])
        have h2 := ih []
        simp only [List.length_cons, List.length_nil, List.length_reverse] at *
        omega
    · rw [if_neg hws]
      have := ih (c :: acc)
      simp only [List.length_cons] at *
      omega

lemma normalize_length_le_strip (s : String) :
    (normalize_content s).length ≤ (pyStrip s).length := by
  show ((joinSpace (pySplitWS (pyStrip s).data)).map Char.toLower).length
      ≤ (pyStrip s).data.length
  rw [List.length_map]
  have := wordsAux_join_length (pyStrip s).data []
  simpa using this

/-- C4: for a message whose normalized content has length at least 3 (the
default `min_content_length`), two `check_and_mark` calls with the same role
within the time window return not-duplicate then duplicate, and the second,
duplicate-returning call leaves the fingerprint stored by the first call
untouched: the cached timestamp is still that of the first call. -/
theorem check_and_mark_idempotent :
    ∀ (cfg : DetectorConfig) (m : PyMessage) (role : Option String)
      (t1 t2 : Int) (c : Cache),
      cfg.min_content_length = 3 →
      3 ≤ (normalize_content (extract_message_content m)).length →
      1 ≤ cfg.cache_size →
      0 ≤ cfg.time_window_seconds →
      t1 ≤ t2 →
      t2 - t1 ≤ cfg.time_window_seconds →
      cacheLookup (messageHash cfg m) c = none →
      (check_and_mark cfg t1 m role true c).1 = false
      ∧ (check_and_mark cfg t2 m role true
          (check_and_mark cfg t1 m role true c).2).1 = true
      ∧ (cacheLookup (messageHash cfg m)
            (check_and_mark cfg t2 m role true
              (check_and_mark cfg t1 m role true c).2).2).map
          MessageFingerprint.timestamp = some t1 := by
  intro cfg m role t1 t2 c hmin hlen hcap hwin ht12 hwithin hnone
  have hcne : extract_message_content m ≠ "" := by
    intro h
    rw [h] at hlen
    have : normalize_content "" = "" := rfl
    rw [this] at hlen
    simp [String.length] at hlen
  have hstr : ¬ ((pyStrip (extract_message_content m)).length < cfg.min_content_length) := by
    have := normalize_length_le_strip (extract_message_content m)
    rw [hmin]
    omega
  have hlook1 : cacheLookup (messageHash cfg m) (evictOld cfg t1 c) = none :=
    cacheLookup_evict_none hnone
  have hdup1 : is_duplicate cfg t1 m role true c = (false, evictOld cfg t1 c) := by
    unfold is_duplicate
    rw [if_neg hcne, if_neg hstr, hlook1]
  have hcm1 : check_and_mark cfg t1 m role true c
      = (false, mark_as_seen cfg t1 m role (evictOld cfg t1 c)) := by
    unfold check_and_mark
    rw [hdup1]
  have hmark1 : mark_as_seen cfg t1 m role (evictOld cfg t1 c)
      = evictOld cfg t1 (evictOld cfg t1 c
          ++ [(messageHash cfg m, newFingerprint cfg t1 m role)]) := by
    unfold mark_as_seen addToCache
    rw [if_neg hcne, if_neg hstr]
    have : cacheLookup (newFingerprint cfg t1 m role).content_hash (evictOld cfg t1 c)
        = none := hlook1
    rw [this]
    rfl
  obtain ⟨d1, hd1eq, hd1sub⟩ := @evictOld_append_last cfg t1 (evictOld cfg t1 c)
    (messageHash cfg m) (newFingerprint cfg t1 m role)
    (by simp only [newFingerprint]; omega) hcap
  obtain ⟨d2, hd2eq, hd2sub⟩ := @evictOld_append_last cfg t2 d1
    (messageHash cfg m) (newFingerprint cfg t1 m role)
    (by simp only [newFingerprint]; omega) hcap
  have hkeys2 : ∀ e ∈ d2, e.1 ≠ messageHash cfg m := by
    intro e he
    have h1 : e ∈ d1 := hd2sub e he
    have h2 : e ∈ evictOld cfg t1 c := hd1sub e h1
    exact cacheLookup_eq_none_iff.mp hnone e (mem_of_mem_evictOld h2)
  have hlook2 : cacheLookup (messageHash cfg m)
      (evictOld cfg t2 (d1 ++ [(messageHash cfg m, newFingerprint cfg t1 m role)]))
      = some (newFingerprint cfg t1 m role) := by
    rw [hd2eq]
    exact cacheLookup_append_last hkeys2
  have hdup2 : is_duplicate cfg t2 m role true
      (d1 ++ [(messageHash cfg m, newFingerprint cfg t1 m role)])
      = (true, evictOld cfg t2
          (d1 ++ [(messageHash cfg m, newFingerprint cfg t1 m role)])) := by
    unfold is_duplicate
    rw [if_neg hcne, if_neg hstr, hlook2]
    dsimp only
    rw [show (true && decide ((newFingerprint cfg t1 m role).role
        ≠ effectiveRole m role)) = false by simp [newFingerprint]]
    rw [if_neg (by decide : ¬ (false = true))]
    rw [if_pos (show t2 - (newFingerprint cfg t1 m role).timestamp
        ≤ cfg.time_window_seconds by simp only [newFingerprint]; omega)]
  have hcm2 : check_and_mark cfg t2 m role true
      (d1 ++ [(messageHash cfg m, newFingerprint cfg t1 m role)])
      = (true, evictOld cfg t2
          (d1 ++ [(messageHash cfg m, newFingerprint cfg t1 m role)])) := by
    unfold check_and_mark
    rw [hdup2]
  refine ⟨by rw [hcm1], ?_, ?_⟩
  · rw [hcm1]
    show (check_and_mark cfg t2 m role true
      (mark_as_seen cfg t1 m role (evictOld cfg t1 c))).1 = true
    rw [hmark1, hd1eq, hcm2]
  · rw [hcm1]
    show (cacheLookup (messageHash cfg m)
        (check_and_mark cfg t2 m role true
          (mark_as_seen cfg t1 m role (evictOld cfg t1 c))).2).map
        MessageFingerprint.timestamp = some t1
    rw [hmark1, hd1eq, hcm2]
    show (cacheLookup (messageHash cfg m)
        (evictOld cfg t2 (d1 ++ [(messageHash cfg m, newFingerprint cfg t1 m role)]))).map
        MessageFingerprint.timestamp = some t1
    rw [hlook2]
    rfl

/-- Witness for C4 at a concrete detector and message. -/
theorem check_and_mark_idempotent_witness :
    (check_and_mark ⟨100, 60, 3, fun s => s⟩ 0 (.dict "Hello" (some "user"))
        (some "user") true []).1 = false
      ∧ (check_and_mark ⟨100, 60, 3, fun s => s⟩ 5 (.dict "Hello" (some "user"))
          (some "user") true
          (check_and_mark ⟨100, 60, 3, fun s => s⟩ 0 (.dict "Hello" (some "user"))
            (some "user") true []).2).1 = true
      ∧ (cacheLookup (messageHash ⟨100, 60, 3, fun s => s⟩ (.dict "Hello" (some "user")))
            (check_and_mark ⟨100, 60, 3, fun s => s⟩ 5 (.dict "Hello" (some "user"))
              (some "user") true
              (check_and_mark ⟨100, 60, 3, fun s => s⟩ 0 (.dict "Hello" (some "user"))
                (some "user") true []).2).2).map
          MessageFingerprint.timestamp = some 0 :=
  check_and_mark_idempotent ⟨100, 60, 3, fun s => s⟩ (.dict "Hello" (some "user"))
    (some "user") 0 5 [] rfl (by decide) (by decide) (by decide) (by decide)
    (by decide) rfl

lemma mem_removeKey {k : String} :
    ∀ {c : Cache} {e : String × MessageFingerprint}, e ∈ removeKey k c → e ∈ c := by
  intro c
  induction c with
  | nil =>
    intro e h
    simp [removeKey] at h
  | cons p rest ih =>
    intro e h
    obtain ⟨k', fp'⟩ := p
    simp only [removeKey] at h
    by_cases hk : k' = k
    · rw [if_pos hk] at h
      exact List.mem_cons_of_mem _ h
    · rw [if_neg hk] at h
      rcases List.mem_cons.mp h with rfl | h
      · exact List.mem_cons_self _ _
      · exact List.mem_cons_of_mem _ (ih h)

lemma removeKey_keys_ne {k : String} :
    ∀ {c : Cache}, (c.map Prod.fst).Nodup → ∀ e ∈ removeKey k c, e.1 ≠ k := by
  intro c
  induction c with
  | nil =>
    intro _ e h
    simp [removeKey] at h
  | cons p rest ih =>
    intro hnd e he
    obtain ⟨k', fp'⟩ := p
    simp only [List.map_cons, List.nodup_cons] at hnd
    simp only [removeKey] at he
    by_cases hk : k' = k
    · rw [if_pos hk] at he
      subst hk
      intro hek
      exact hnd.1 (hek ▸ List.mem_map_of_mem Prod.fst he)
    · rw [if_neg hk] at he
      rcases List.mem_cons.mp he with rfl | he
      · exact hk
      · exact ih hnd.2 e he

/-- C10: when the content hash is already cached, `mark_as_seen` only moves
the existing entry to the most-recently-used end and discards the freshly
built fingerprint: the stored entry (timestamp and role included) is exactly
the one cached before the call. -/
theorem mark_as_seen_existing_spec :
    ∀ (cfg : DetectorConfig) (now : Int) (m : PyMessage) (role : Option String)
      (c : Cache) (fp : MessageFingerprint),
      extract_message_content m ≠ "" →
      ¬ ((pyStrip (extract_message_content m)).length < cfg.min_content_length) →
      1 ≤ cfg.cache_size →
      (c.map Prod.fst).Nodup →
      cacheLookup (messageHash cfg m) c = some fp →
      ¬ (fp.timestamp < now - cfg.time_window_seconds) →
      cacheLookup (messageHash cfg m) (mark_as_seen cfg now m role c) = some fp
      ∧ (mark_as_seen cfg now m role c).getLast? = some (messageHash cfg m, fp) := by
  intro cfg now m role c fp hcne hstr hcap hnd hlook hwin
  have hmv : moveToEnd (messageHash cfg m) c
      = removeKey (messageHash cfg m) c ++ [(messageHash cfg m, fp)] := by
    unfold moveToEnd
    rw [hlook]
  have hmark : mark_as_seen cfg now m role c
      = evictOld cfg now
          (removeKey (messageHash cfg m) c ++ [(messageHash cfg m, fp)]) := by
    unfold mark_as_seen addToCache
    rw [if_neg hcne, if_neg hstr]
    have hl : cacheLookup (newFingerprint cfg now m role).content_hash c = some fp :=
      hlook
    rw [hl]
    show evictOld cfg now (moveToEnd (messageHash cfg m) c) = _
    rw [hmv]
  obtain ⟨d', hd'eq, hd'sub⟩ := @evictOld_append_last cfg now
    (removeKey (messageHash cfg m) c) (messageHash cfg m) fp hwin hcap
  have hkeys : ∀ e ∈ d', e.1 ≠ messageHash cfg m := fun e he =>
    removeKey_keys_ne hnd e (hd'sub e he)
  constructor
  · rw [hmark, hd'eq]
    exact cacheLookup_append_last hkeys
  · rw [hmark, hd'eq]
    exact List.getLast?_concat _

/-- Witness for C10: re-marking cached content with a different role keeps
the original timestamp and role and moves the entry to the end. -/
theorem mark_as_seen_existing_spec_witness :
    cacheLookup (messageHash ⟨100, 60, 3, fun s => s⟩ (.dict "ABC" none))
        (mark_as_seen ⟨100, 60, 3, fun s => s⟩ 10 (.dict "ABC" none)
          (some "assistant") [("abc", ⟨"abc", 0, "user", "abc"⟩)])
      = some ⟨"abc", 0, "user", "abc"⟩
    ∧ (mark_as_seen ⟨100, 60, 3, fun s => s⟩ 10 (.dict "ABC" none)
        (some "assistant") [("abc", ⟨"abc", 0, "user", "abc"⟩)]).getLast?
      = some ("abc", ⟨"abc", 0, "user", "abc"⟩) := by
  have h := mark_as_seen_existing_spec ⟨100, 60, 3, fun s => s⟩ 10 (.dict "ABC" none)
    (some "assistant") [("abc", ⟨"abc", 0, "user", "abc"⟩)] ⟨"abc", 0, "user", "abc"⟩
    (by decide) (by decide) (by decide) (by decide) (by decide) (by decide)
  exact h

lemma mark_as_seen_length_le (cfg : DetectorConfig) (now : Int) (m : PyMessage)
    (role : Option String) {c : Cache} (hc : c.length ≤ cfg.cache_size) :
    (mark_as_seen cfg now m role c).length ≤ cfg.cache_size := by
  unfold mark_as_seen
  by_cases h1 : extract_message_content m = ""
  · rw [if_pos h1]
    exact hc
  · rw [if_neg h1]
    by_cases h2 : (pyStrip (extract_message_content m)).length < cfg.min_content_length
    · rw [if_pos h2]
      exact hc
    · rw [if_neg h2]
      unfold addToCache
      exact evictOld_length_le _ _ _

lemma is_duplicate_cache_cases (cfg : DetectorConfig) (now : Int) (m : PyMessage)
    (role : Option String) (checkRole : Bool) (c : Cache) :
    (is_duplicate cfg now m role checkRole c).2 = c
      ∨ (is_duplicate cfg now m role checkRole c).2 = evictOld cfg now c := by
  unfold is_duplicate
  by_cases h1 : extract_message_content m = ""
  · rw [if_pos h1]
    exact .inl rfl
  · rw [if_neg h1]
    by_cases h2 : (pyStrip (extract_message_content m)).length < cfg.min_content_length
    · rw [if_pos h2]
      exact .inl rfl
    · rw [if_neg h2]
      cases hl : cacheLookup (messageHash cfg m) (evictOld cfg now c) with
      | none => exact .inr rfl
      | some cached =>
        dsimp only
        by_cases h3 : (checkRole && decide (cached.role ≠ effectiveRole m role)) = true
        · rw [if_pos h3]
          exact .inr rfl
        · rw [if_neg h3]
          by_cases h4 : now - cached.timestamp ≤ cfg.time_window_seconds
          · rw [if_pos h4]
            exact .inr rfl
          · rw [if_neg h4]
            exact .inr rfl

lemma check_and_mark_length_le (cfg : DetectorConfig) (now : Int) (m : PyMessage)
    (role : Option String) (checkRole : Bool) {c : Cache}
    (hc : c.length ≤ cfg.cache_size) :
    ((check_and_mark cfg now m role checkRole c).2).length ≤ cfg.cache_size := by
  unfold check_and_mark
  have hcases := is_duplicate_cache_cases cfg now m role checkRole c
  cases hd : is_duplicate cfg now m role checkRole c with
  | mk b c1 =>
    rw [hd] at hcases
    have hc1 : c1.length ≤ cfg.cache_size := by
      rcases hcases with h | h
      · simp only at h
        rw [h]
        exact hc
      · simp only at h
        rw [h]
        exact evictOld_length_le _ _ _
    cases b
    · exact mark_as_seen_length_le cfg now m role hc1
    · exact hc1

lemma loadAux_length_le (cfg : DetectorConfig) (now : Int) :
    ∀ (msgs : List PyMessage) {c : Cache}, c.length ≤ cfg.cache_size →
      (loadFromTranscriptAux cfg now msgs c).length ≤ cfg.cache_size := by
  intro msgs
  induction msgs with
  | nil =>
    intro c hc
    exact hc
  | cons m rest ih =>
    intro c hc
    unfold loadFromTranscriptAux
    by_cases h1 : extract_message_content m = ""
        ∨ (pyStrip (extract_message_content m)).length < cfg.min_content_length
    · rw [if_pos h1]
      exact ih hc
    · rw [if_neg h1]
      have haddle : (addToCache cfg now (newFingerprint cfg now m none) c).length
          ≤ cfg.cache_size := by
        unfold addToCache
        exact evictOld_length_le _ _ _
      by_cases h2 : cfg.cache_size
          ≤ (addToCache cfg now (newFingerprint cfg now m none) c).length
      · rw [if_pos h2]
        exact haddle
      · rw [if_neg h2]
        exact ih haddle

lemma evictOld_in_window (cfg : DetectorConfig) (now : Int) (c : Cache) :
    ∀ e ∈ evictOld cfg now c, now - e.2.timestamp ≤ cfg.time_window_seconds := by
  intro e he
  unfold evictOld at he
  have := (List.mem_filter.mp (List.mem_of_mem_drop he)).2
  simp only [decide_eq_true_eq, not_lt] at this
  omega

lemma addToCache_fresh {cfg : DetectorConfig} {now : Int} {fp : MessageFingerprint}
    {c : Cache}
    (hw : 0 ≤ cfg.time_window_seconds)
    (hts : ∀ e ∈ c, e.2.timestamp = now)
    (hfp : fp.timestamp = now)
    (hnone : cacheLookup fp.content_hash c = none) :
    addToCache cfg now fp c
      = (c ++ [(fp.content_hash, fp)]).drop (c.length + 1 - cfg.cache_size) := by
  unfold addToCache
  rw [hnone]
  show evictOld cfg now (c ++ [(fp.content_hash, fp)]) = _
  unfold evictOld
  have hfil : (c ++ [(fp.content_hash, fp)]).filter
      (fun e => decide (¬ (e.2.timestamp < now - cfg.time_window_seconds)))
      = c ++ [(fp.content_hash, fp)] := by
    rw [List.filter_eq_self]
    intro e he
    rcases List.mem_append.mp he with h | h
    · have := hts e h
      simp only [decide_eq_true_eq, not_lt, this]
      omega
    · simp only [List.mem_singleton] at h
      subst h
      simp only [decide_eq_true_eq, not_lt, hfp]
      omega
  rw [hfil, List.length_append, List.length_singleton]

lemma newFingerprint_hash (cfg : DetectorConfig) (now : Int) (m : PyMessage)
    (role : Option String) :
    (newFingerprint cfg now m role).content_hash = messageHash cfg m := rfl

lemma newFingerprint_ts (cfg : DetectorConfig) (now : Int) (m : PyMessage)
    (role : Option String) :
    (newFingerprint cfg now m role).timestamp = now := rfl

lemma mark_fold_keys (cfg : DetectorConfig) (now : Int) (role : Option String)
    (hw : 0 ≤ cfg.time_window_seconds) :
    ∀ (msgs : List PyMessage) (c : Cache),
      (∀ m ∈ msgs, extract_message_content m ≠ ""
        ∧ ¬ ((pyStrip (extract_message_content m)).length < cfg.min_content_length)) →
      ((c.map Prod.fst) ++ msgs.map (messageHash cfg)).Nodup →
      (∀ e ∈ c, e.2.timestamp = now) →
      c.length ≤ cfg.cache_size →
      ((msgs.foldl (fun acc m => mark_as_seen cfg now m role acc) c).map Prod.fst
          = ((c.map Prod.fst) ++ msgs.map (messageHash cfg)).drop
              (c.length + msgs.length - cfg.cache_size))
      ∧ ∀ e ∈ msgs.foldl (fun acc m => mark_as_seen cfg now m role acc) c,
          e.2.timestamp = now := by
  intro msgs
  induction msgs with
  | nil =>
    intro c hu hnd hts hlen
    simp only [List.foldl_nil, List.map_nil, List.append_nil, List.length_nil]
    exact ⟨by rw [show c.length + 0 - cfg.cache_size = 0 from by omega,
      List.drop_zero], hts⟩
  | cons m rest ih =>
    intro c hu hnd hts hlen
    have hum := hu m (List.mem_cons_self _ _)
    have hur : ∀ m' ∈ rest, extract_message_content m' ≠ ""
        ∧ ¬ ((pyStrip (extract_message_content m')).length < cfg.min_content_length) :=
      fun m' hm' => hu m' (List.mem_cons_of_mem _ hm')
    have hnd' := hnd
    rw [List.nodup_append] at hnd'
    have hkey : cacheLookup (messageHash cfg m) c = none := by
      rw [cacheLookup_eq_none_iff]
      intro e he hek
      refine hnd'.2.2 (hek ▸ List.mem_map_of_mem Prod.fst he) ?_
      rw [List.map_cons]
      exact List.mem_cons_self _ _
    have hmark : mark_as_seen cfg now m role c
        = (c ++ [(messageHash cfg m, newFingerprint cfg now m role)]).drop
            (c.length + 1 - cfg.cache_size) := by
      unfold mark_as_seen
      rw [if_neg hum.1, if_neg hum.2]
      have hkey' : cacheLookup (newFingerprint cfg now m role).content_hash c = none := by
        rw [newFingerprint_hash]
        exact hkey
      have := addToCache_fresh hw hts (newFingerprint_ts cfg now m role) hkey'
      rw [newFingerprint_hash] at this
      exact this
    have hc'len : ((c ++ [(messageHash cfg m, newFingerprint cfg now m role)]).drop
        (c.length + 1 - cfg.cache_size)).length
        = c.length + 1 - (c.length + 1 - cfg.cache_size) := by
      rw [List.length_drop, List.length_append, List.length_singleton]
    have hc'le : ((c ++ [(messageHash cfg m, newFingerprint cfg now m role)]).drop
        (c.length + 1 - cfg.cache_size)).length ≤ cfg.cache_size := by
      rw [hc'len]
      omega
    have hc'ts : ∀ e ∈ (c ++ [(messageHash cfg m, newFingerprint cfg now m role)]).drop
        (c.length + 1 - cfg.cache_size), e.2.timestamp = now := by
      intro e he
      rcases List.mem_append.mp (List.mem_of_mem_drop he) with h | h
      · exact hts e h
      · rw [List.mem_singleton] at h
        subst h
        rfl
    have hc'keys : ((c ++ [(messageHash cfg m, newFingerprint cfg now m role)]).drop
        (c.length + 1 - cfg.cache_size)).map Prod.fst
        = ((c.map Prod.fst) ++ [messageHash cfg m]).drop
            (c.length + 1 - cfg.cache_size) := by
      rw [List.map_drop, List.map_append]
      rfl
    have hndrec : (((c ++ [(messageHash cfg m, newFingerprint cfg now m role)]).drop
          (c.length + 1 - cfg.cache_size)).map Prod.fst
        ++ rest.map (messageHash cfg)).Nodup := by
      rw [hc'keys]
      have hsub : ((((c.map Prod.fst) ++ [messageHash cfg m]).drop
            (c.length + 1 - cfg.cache_size)) ++ rest.map (messageHash cfg)).Sublist
          (((c.map Prod.fst) ++ [messageHash cfg m]) ++ rest.map (messageHash cfg)) :=
        (List.drop_sublist _ _).append_right _
      refine List.Nodup.sublist hsub ?_
      rw [List.append_assoc, List.singleton_append]
      simpa using hnd
    obtain ⟨ihkeys, ihts⟩ := ih ((c ++ [(messageHash cfg m,
      newFingerprint cfg now m role)]).drop (c.length + 1 - cfg.cache_size))
      hur hndrec hc'ts hc'le
    constructor
    · show (List.foldl (fun acc m => mark_as_seen cfg now m role acc)
        (mark_as_seen cfg now m role c) rest).map Prod.fst = _
      rw [hmark, ihkeys, hc'keys, hc'len]
      rw [← List.drop_append_of_le_length
        (by rw [List.length_append, List.length_singleton]; omega)]
      rw [List.drop_drop]
      rw [List.append_assoc, List.singleton_append]
      rw [List.map_cons, List.length_cons]
      congr 1
      omega
    · show ∀ e ∈ List.foldl (fun acc m => mark_as_seen cfg now m role acc)
        (mark_as_seen cfg now m role c) rest, e.2.timestamp = now
      rw [hmark]
      exact ihts

/-- C9: every inserting operation keeps the cache within `cache_size`
(parts 1–3); eviction drops entries older than the window and then enforces
the size bound (part 4); and `N + k` distinct fresh insertions into a
detector of capacity `N` leave exactly the `N` most recent hashes, the `k`
least-recently-used ones being gone (part 5, stated for any capacity as a
drop of the oldest `length − capacity` keys). -/
theorem detector_cache_bound_spec :
    (∀ (cfg : DetectorConfig) (now : Int) (m : PyMessage) (role : Option String)
        (c : Cache), c.length ≤ cfg.cache_size →
        (mark_as_seen cfg now m role c).length ≤ cfg.cache_size)
    ∧ (∀ (cfg : DetectorConfig) (now : Int) (m : PyMessage) (role : Option String)
        (checkRole : Bool) (c : Cache), c.length ≤ cfg.cache_size →
        ((check_and_mark cfg now m role checkRole c).2).length ≤ cfg.cache_size)
    ∧ (∀ (cfg : DetectorConfig) (now : Int) (transcript : List PyMessage) (c : Cache),
        c.length ≤ cfg.cache_size →
        (load_from_transcript cfg now transcript c).length ≤ cfg.cache_size)
    ∧ (∀ (cfg : DetectorConfig) (now : Int) (c : Cache),
        (∀ e ∈ evictOld cfg now c, now - e.2.timestamp ≤ cfg.time_window_seconds)
        ∧ (evictOld cfg now c).length ≤ cfg.cache_size)
    ∧ (∀ (cfg : DetectorConfig) (now : Int) (role : Option String)
        (msgs : List PyMessage),
        0 ≤ cfg.time_window_seconds →
        (∀ m ∈ msgs, extract_message_content m ≠ ""
          ∧ ¬ ((pyStrip (extract_message_content m)).length < cfg.min_content_length)) →
        (msgs.map (messageHash cfg)).Nodup →
        (msgs.foldl (fun acc m => mark_as_seen cfg now m role acc) []).map Prod.fst
          = (msgs.map (messageHash cfg)).drop (msgs.length - cfg.cache_size)) := by
  refine ⟨?_, ?_, ?_, ?_, ?_⟩
  · intro cfg now m role c hc
    exact mark_as_seen_length_le cfg now m role hc
  · intro cfg now m role checkRole c hc
    exact check_and_mark_length_le cfg now m role checkRole hc
  · intro cfg now transcript c hc
    exact loadAux_length_le cfg now transcript.reverse hc
  · intro cfg now c
    exact ⟨evictOld_in_window cfg now c, evictOld_length_le cfg now c⟩
  · intro cfg now role msgs hw hu hnd
    have h := (mark_fold_keys cfg now role hw msgs [] hu (by simpa using hnd)
      (by simp) (by simp)).1
    simpa using h

/-- Witness for C9: inserting three distinct messages into a capacity-2
detector leaves exactly the two most recent hashes. -/
theorem detector_cache_bound_spec_witness :
    ([PyMessage.str "aaa", PyMessage.str "bbb", PyMessage.str "ccc"].foldl
        (fun acc m => mark_as_seen ⟨2, 60, 3, fun s => s⟩ 0 m none acc) []).map Prod.fst
      = ([PyMessage.str "aaa", PyMessage.str "bbb", PyMessage.str "ccc"].map
          (messageHash ⟨2, 60, 3, fun s => s⟩)).drop
            ([PyMessage.str "aaa", PyMessage.str "bbb", PyMessage.str "ccc"].length - 2)
    ∧ ([PyMessage.str "aaa", PyMessage.str "bbb", PyMessage.str "ccc"].foldl
        (fun acc m => mark_as_seen ⟨2, 60, 3, fun s => s⟩ 0 m none acc) []).map Prod.fst
      = ["bbb", "ccc"] := by
  have h := detector_cache_bound_spec.2.2.2.2 ⟨2, 60, 3, fun s => s⟩ 0 none
    [.str "aaa", .str "bbb", .str "ccc"] (by decide) (by decide) (by decide)
  exact ⟨h, h.trans (by decide)⟩

/-! ## Conversation log (`server/services/conversation/log.py`) -/

/-- One parsed conversation-log entry `(tag, timestamp, payload)` as yielded
by `iter_entries`. -/
structure LogEntry where
  tag : String
  timestamp : String
  payload : String
  deriving DecidableEq

/-- `ChatMessage` (`server/models`): role, content and optional timestamp. -/
structure ChatMessage where
  role : String
  content : String
  timestamp : Option String
  deriving DecidableEq

/-- `html.escape(c, quote=False)` on one character. -/
def escapeChar (c : Char) : String :=
  if c = '&' then "&amp;"
  else if c = '<' then "&lt;"
  else if c = '>' then "&gt;"
  else String.mk [c]

/-- `html.escape(s, quote=False)`. -/
def htmlEscape (s : String) : String :=
  String.join (s.data.map escapeChar)

/-- One reassembled line of `load_transcript`. -/
def transcriptPart (e : LogEntry) : String :=
  if e.timestamp = "" then
    "<" ++ e.tag ++ ">" ++ htmlEscape e.payload ++ "</" ++ e.tag ++ ">"
  else
    "<" ++ e.tag ++ " timestamp=\"" ++ e.timestamp ++ "\">" ++ htmlEscape e.payload
      ++ "</" ++ e.tag ++ ">"

/-- The `parts` list of `load_transcript`: one part per entry, every tag
(including `wait`) retained. -/
def loadTranscriptParts (entries : List LogEntry) : List String :=
  entries.map transcriptPart

/-- `load_transcript()`: the parts joined by newlines. -/
def load_transcript (entries : List LogEntry) : String :=
  String.intercalate "\n" (loadTranscriptParts entries)

/-- The chat message built for a log entry (`timestamp or None`). -/
def chatMessageOf (role : String) (e : LogEntry) : ChatMessage :=
  ⟨role, e.payload, if e.timestamp = "" then none else some e.timestamp⟩

/-- `to_chat_messages()`: `user_message` entries become `user` messages,
`alyn_reply` entries become `assistant` messages; `wait` markers (and any
other tag, such as `agent_message`) produce nothing. -/
def to_chat_messages : List LogEntry → List ChatMessage
  | [] => []
  | e :: rest =>
    if e.tag = "user_message" then chatMessageOf "user" e :: to_chat_messages rest
    else if e.tag = "alyn_reply" then chatMessageOf "assistant" e :: to_chat_messages rest
    else to_chat_messages rest

/-- C8: `to_chat_messages` maps each `user_message` to a `user` chat message
and each `alyn_reply` to an `assistant` one, in log order; all `wait`
entries are omitted (the projection is invariant under removing them) while
`load_transcript` retains one part per entry; and the output length is the
number of `user_message` entries plus the number of `alyn_reply` entries. -/
theorem to_chat_messages_spec :
    ∀ entries : List LogEntry,
      (to_chat_messages entries
        = to_chat_messages (entries.filter fun e => decide (e.tag ≠ "wait")))
      ∧ (to_chat_messages entries
          = (entries.filter fun e =>
              decide (e.tag = "user_message") || decide (e.tag = "alyn_reply")).map
              fun e => if e.tag = "user_message" then chatMessageOf "user" e
                else chatMessageOf "assistant" e)
      ∧ ((to_chat_messages entries).length
          = (entries.filter fun e => decide (e.tag = "user_message")).length
            + (entries.filter fun e => decide (e.tag = "alyn_reply")).length)
      ∧ (loadTranscriptParts entries).length = entries.length := by
  intro entries
  induction entries with
  | nil => exact ⟨rfl, rfl, rfl, rfl⟩
  | cons e rest ih =>
    obtain ⟨ih1, ih2, ih3, ih4⟩ := ih
    have hload : (loadTranscriptParts (e :: rest)).length = (e :: rest).length := by
      simp [loadTranscriptParts]
    refine ⟨?_, ?_, ?_, hload⟩
    · by_cases hu : e.tag = "user_message"
      · simp [to_chat_messages, List.filter_cons, hu, ih1]
      · by_cases ha : e.tag = "alyn_reply"
        · simp [to_chat_messages, List.filter_cons, hu, ha, ih1]
        · by_cases hw : e.tag = "wait"
          · simp [to_chat_messages, List.filter_cons, hu, ha, hw, ih1]
          · simp [to_chat_messages, List.filter_cons, hu, ha, hw, ih1]
    · by_cases hu : e.tag = "user_message"
      · simp [to_chat_messages, List.filter_cons, hu, ih2]
      · by_cases ha : e.tag = "alyn_reply"
        · simp [to_chat_messages, List.filter_cons, hu, ha, ih2]
        · simp [to_chat_messages, List.filter_cons, hu, ha, ih2]
    · by_cases hu : e.tag = "user_message"
      · simp [to_chat_messages, List.filter_cons, hu, ih3]
        omega
      · by_cases ha : e.tag = "alyn_reply"
        · simp [to_chat_messages, List.filter_cons, hu, ha, ih3]
          omega
        · simp [to_chat_messages, List.filter_cons, hu, ha, ih3]

end OpenPoke

